import Mathlib

/-!
Verification of the parallel streaming aggregation engine in
`src/main/nodejs/jackyef/scheduler-worker.js` and
`src/main/nodejs/jackyef/shared-map.js`.

The JavaScript source is shallowly embedded: byte buffers become `List ℕ`
(each element a byte value `< 256`), JS numbers become `ℤ`/`ℚ` with the
32-bit truncations of `Int32Array` stores and the IEEE-754 double rounding
of the hash multiplication made explicit, and the event-driven stream /
worker protocol becomes explicit state-passing over the dispatch order.
-/

namespace SchedulerWorker

/-! ### Byte constants (`';'.charCodeAt(0)` etc. in the source) -/

def semicolonB : ℕ := 59
def newlineB : ℕ := 10
def minusB : ℕ := 45
def dotB : ℕ := 46
def zeroB : ℕ := 48

/-! ### IEEE-754 double rounding of integers

`shared-map.js` computes `hash = (hash * 16777619) >>> 0` where `hash` is a
signed 32-bit value held in a JS number (an IEEE-754 binary64 double).  The
product can exceed `2^53`, so the multiplication result is rounded to the
nearest representable double (ties to even).  We model that rounding on
integers exactly. -/

/-- Round `a` to the nearest multiple of `m` (`m > 0`), ties to the even
multiple. -/
def roundEvenMult (a m : ℕ) : ℕ :=
  let q := a / m
  let r := a % m
  if 2 * r < m then q * m
  else if m < 2 * r then (q + 1) * m
  else if q % 2 = 0 then q * m else (q + 1) * m

/-- `⌊log₂ a⌋` for `1 ≤ a < 2 ^ 128`, computed by a fold over the
candidate exponents (every product in scope is far below `2 ^ 128`). -/
def floorLog2 (a : ℕ) : ℕ :=
  (List.range 128).foldl (fun acc k => if 2 ^ (k + 1) ≤ a then k + 1 else acc) 0

/-- Round a nonnegative integer to the nearest IEEE-754 binary64 value
(as an integer; exact below `2^53`). -/
def dblRoundNat (a : ℕ) : ℕ :=
  if a < 2 ^ 53 then a else roundEvenMult a (2 ^ (floorLog2 a + 1 - 53))

/-- The result of the JS double multiplication `x * y` for integers `x y`
whose exact product may not be representable: round to nearest, ties to
even, symmetric in sign. -/
def jsMulRound (x y : ℤ) : ℤ :=
  let p := x * y
  p.sign * (dblRoundNat p.natAbs : ℤ)

/-- Signed reading of a 32-bit pattern (JS `ToInt32` of a value already in
`[0, 2^32)`). -/
def u32ToInt32 (n : ℕ) : ℤ :=
  if n < 2 ^ 31 then (n : ℤ) else (n : ℤ) - 2 ^ 32

/-- JS `ToInt32` applied when storing an integral number into an
`Int32Array` cell. -/
def toInt32 (x : ℤ) : ℤ :=
  (x + 2 ^ 31) % 2 ^ 32 - 2 ^ 31

/-! ### `fnv1aHash` (shared-map.js lines 44-51)

```js
function fnv1aHash(buffer) {
  let hash = 2166136261; // FNV offset basis
  for (let i = 0; i < buffer.length; i++) {
    hash ^= buffer[i];
    hash = (hash * 16777619) >>> 0; // 32-bit FNV-1a prime
  }
  return hash;
}
```

`hash ^= buffer[i]` coerces through `ToInt32`, so the xor acts on the
32-bit pattern; the subsequent multiplication happens on the signed value
as a double and `>>> 0` is `ToUint32` of the (integral) result. -/

def fnvStep (h b : ℕ) : ℕ :=
  let hx := h ^^^ b
  let p := jsMulRound (u32ToInt32 hx) 16777619
  (p % (2 ^ 32 : ℤ)).toNat

def fnv1aHash (buffer : List ℕ) : ℕ :=
  buffer.foldl fnvStep 2166136261

/-! ### `fastParseFloat` (scheduler-worker.js lines 246-267)

```js
function fastParseFloat(input) {
  let isNegative = input[0] === minus;
  if (isNegative) {
    return -fastParseFloat(input.slice(1));
  }
  let inputLength = input.length;
  let pow = 0;
  let sum = 0;
  for (let i = inputLength - 1; i >= 0; i--) {
    if (input[i] !== dot) {
      sum += (input[i] - zero) * (10 ** pow)
      pow += 1;
    }
  }
  return sum
}
```

The loop accumulates `sum += (input[i] - zero) * (10 ** pow)` in IEEE-754
binary64 doubles.  Every finite value this loop produces is
integer-valued (sums of integers times powers of ten, each rounded to 53
significant bits), so the running value is either an integer-valued
finite double, an infinity (`10 ** pow` overflows to `Infinity` from
`pow = 309`), or `NaN` (from `0 * Infinity`).  Rounding an exact integer
result to binary64 is round-to-nearest, ties to even, with overflow to
`±Infinity` at `2^1024`; it is the identity below `2^53`. -/

/-- `⌊log₂ a⌋` for `1 ≤ a < 2 ^ 1200` (the loop's exact intermediate
integers stay far below `2 ^ 1200`). -/
def floorLog2W (a : ℕ) : ℕ :=
  (List.range 1200).foldl (fun acc k => if 2 ^ (k + 1) ≤ a then k + 1 else acc) 0

/-- Round a nonnegative integer to 53 significant bits, nearest, ties to
even; exact below `2^53`. -/
def dblRoundNatW (a : ℕ) : ℕ :=
  if a < 2 ^ 53 then a else roundEvenMult a (2 ^ (floorLog2W a + 1 - 53))

/-- A JS number value arising in the parse loop: an integer-valued finite
double, an infinity, or `NaN`. -/
inductive JSVal where
  | int (n : ℤ)
  | inf (pos : Bool)
  | nan
deriving DecidableEq

/-- The binary64 double nearest to the integer `x` (ties to even,
overflow to infinity): the IEEE result of an addition or multiplication
of two integer-valued doubles whose exact result is `x`. -/
def dblRoundZ (x : ℤ) : JSVal :=
  let r : ℕ := dblRoundNatW x.natAbs
  if r < 2 ^ 1024 then JSVal.int (x.sign * r) else JSVal.inf (0 ≤ x)

/-- IEEE binary64 addition on parse-loop values. -/
def dAddV : JSVal → JSVal → JSVal
  | JSVal.nan, _ => JSVal.nan
  | _, JSVal.nan => JSVal.nan
  | JSVal.inf p, JSVal.inf q => if p = q then JSVal.inf p else JSVal.nan
  | JSVal.inf p, JSVal.int _ => JSVal.inf p
  | JSVal.int _, JSVal.inf p => JSVal.inf p
  | JSVal.int a, JSVal.int b => dblRoundZ (a + b)

/-- IEEE binary64 multiplication on parse-loop values. -/
def dMulV : JSVal → JSVal → JSVal
  | JSVal.nan, _ => JSVal.nan
  | _, JSVal.nan => JSVal.nan
  | JSVal.inf p, JSVal.inf q => JSVal.inf (p == q)
  | JSVal.inf p, JSVal.int n => if n = 0 then JSVal.nan else JSVal.inf (p == decide (0 < n))
  | JSVal.int n, JSVal.inf p => if n = 0 then JSVal.nan else JSVal.inf (p == decide (0 < n))
  | JSVal.int a, JSVal.int b => dblRoundZ (a * b)

/-- IEEE negation. -/
def dNegV : JSVal → JSVal
  | JSVal.int n => JSVal.int (-n)
  | JSVal.inf p => JSVal.inf (!p)
  | JSVal.nan => JSVal.nan

/-- The double value of `10 ** pow`: correctly rounded, exact for
`pow ≤ 22`, `Infinity` from `pow = 309` on. -/
def pow10V (pow : ℕ) : JSVal := dblRoundZ (10 ^ pow)

/-- `Math.min(m, t)` for an `Int32Array`-read `m` (exactly representable)
and a parse value `t`: selection, never rounding; `NaN` propagates. -/
def dMinV (m : ℤ) : JSVal → JSVal
  | JSVal.int t => JSVal.int (min m t)
  | JSVal.inf p => if p then JSVal.int m else JSVal.inf false
  | JSVal.nan => JSVal.nan

/-- `Math.max(m, t)`, same reading. -/
def dMaxV (m : ℤ) : JSVal → JSVal
  | JSVal.int t => JSVal.int (max m t)
  | JSVal.inf p => if p then JSVal.inf true else JSVal.int m
  | JSVal.nan => JSVal.nan

/-- JS `ToInt32`, applied by `Atomics.store` into an `Int32Array` cell:
`NaN` and the infinities store `0`, integer values wrap mod `2^32`. -/
def jsToInt32 : JSVal → ℤ
  | JSVal.int n => toInt32 n
  | _ => 0

/-- The right-to-left loop over the reversed byte list, carrying the
current power of ten and the running double `sum`. -/
def fppLoop : List ℕ → ℕ → JSVal → JSVal
  | [], _, sum => sum
  | b :: rest, pow, sum =>
      if b = dotB then fppLoop rest pow sum
      else fppLoop rest (pow + 1)
        (dAddV sum (dMulV (JSVal.int ((b : ℤ) - (zeroB : ℤ))) (pow10V pow)))

/-- The non-negative core loop of `fastParseFloat`. -/
def fppCore (input : List ℕ) : JSVal :=
  fppLoop input.reverse 0 (JSVal.int 0)

def fastParseFloat : List ℕ → JSVal
  | [] => JSVal.int 0
  | b :: rest =>
      if b = minusB then dNegV (fastParseFloat rest)
      else fppCore (b :: rest)

/-! ### The shared aggregation table (`shared-map.js`)

`typedArray` is an `Int32Array` of `BLOCK_COUNT * BLOCK_SIZE` cells and
`stationNamesTypedArray` a `Uint8Array` of `BLOCK_COUNT *
STATION_NAME_BYTE_SIZE` bytes, both zero-initialised (`SharedArrayBuffer`
contents start at zero).  We model the pair of arrays as total functions
from cell index; all reachable indices are in bounds. -/

def BLOCK_SIZE : ℕ := 4
def BLOCK_COUNT : ℕ := 10007
def STATION_NAME_BYTE_SIZE : ℕ := 100
def COUNT_OFFSET : ℕ := 0
def MIN_OFFSET : ℕ := 1
def MAX_OFFSET : ℕ := 2
def SUM_OFFSET : ℕ := 3

/-- The two shared arrays: `agg` is `typedArray` (signed 32-bit values),
`names` is `stationNamesTypedArray` (byte values). -/
structure SMState where
  agg : ℕ → ℤ
  names : ℕ → ℕ

/-- Both `SharedArrayBuffer`s start zero-filled. -/
def SMState.init : SMState := ⟨fun _ => 0, fun _ => 0⟩

/-- `getIndex` (shared-map.js lines 59-79): slot index times the entry
size. -/
def getIndex (key : List ℕ) (entrySize : ℕ) : ℕ :=
  (fnv1aHash key % BLOCK_COUNT) * entrySize

/-- Numeric branch of `set` (shared-map.js lines 100-105):
`Atomics.store(ta, index + offset, value)` on the `Int32Array`. -/
def setNum (st : SMState) (key : List ℕ) (value : ℤ) (offset : ℕ) : SMState :=
  { st with agg := fun i =>
      if i = getIndex key BLOCK_SIZE + offset then toInt32 value else st.agg i }

/-- Buffer branch of `set` (shared-map.js lines 107-113): the label bytes
are stored one by one into the `Uint8Array` at the name slot (offset is
always `0` at the call site; byte stores truncate mod 256). -/
def setName (st : SMState) (key value : List ℕ) : SMState :=
  { st with names := fun i =>
      let base := getIndex key STATION_NAME_BYTE_SIZE
      if base ≤ i ∧ i < base + value.length then value.getD (i - base) 0 % 256
      else st.names i }

/-- `get` (shared-map.js lines 125-138): `Atomics.load(ta, index + offset)`
on the `Int32Array`. -/
def getNum (st : SMState) (key : List ℕ) (offset : ℕ) : ℤ :=
  st.agg (getIndex key BLOCK_SIZE + offset)

/-! ### The per-record body of the worker loop
(scheduler-worker.js lines 136-171)

`!existingCount` is true exactly when the loaded 32-bit count is `0`.  The
first-writer branch stores `count=1, min, max, sum` and then the label
bytes; the other branch increments the count and folds `min`, `max`, `sum`
with interleaved loads and stores, in source order.  `existingCount + 1`
is a double addition of an `Int32Array` read (`< 2^31`) and `1`, hence
exact; `Math.min`/`Math.max` select and never round; the sum update
`temp + existingSum` is a genuine double addition that rounds when the
exact sum leaves 53 bits. -/

/-- Storing a parse value: the `Atomics.store` applies `ToInt32` to the
double. -/
def setNumD (st : SMState) (key : List ℕ) (x : JSVal) (offset : ℕ) : SMState :=
  setNum st key (jsToInt32 x) offset

def processRecord (st : SMState) (label : List ℕ) (temp : JSVal) : SMState :=
  let existingCount := getNum st label COUNT_OFFSET
  if existingCount = 0 then
    let st1 := setNum st label 1 COUNT_OFFSET
    let st2 := setNumD st1 label temp MIN_OFFSET
    let st3 := setNumD st2 label temp MAX_OFFSET
    let st4 := setNumD st3 label temp SUM_OFFSET
    setName st4 label label
  else
    let st1 := setNum st label (existingCount + 1) COUNT_OFFSET
    let st2 := setNumD st1 label (dMinV (getNum st1 label MIN_OFFSET) temp) MIN_OFFSET
    let st3 := setNumD st2 label (dMaxV (getNum st2 label MAX_OFFSET) temp) MAX_OFFSET
    setNumD st3 label (dAddV temp (JSVal.int (getNum st3 label SUM_OFFSET))) SUM_OFFSET

/-! ### The worker chunk loop (scheduler-worker.js lines 121-174)

`chunk.indexOf(b, offset)` and `chunk.slice(start, end)` follow the JS
semantics, including the degenerate `semicolonIndex === -1` case where
`slice(offset, -1)` drops the final byte and `slice(0, newlineIndex)`
restarts from absolute position 0. -/

/-- First index `≥ from` of byte `b`, if any (JS `indexOf` as an option). -/
def findFrom (b : ℕ) (l : List ℕ) (start : ℕ) : Option ℕ :=
  ((l.drop start).findIdx? (· = b)).map (· + start)

/-- JS `Array.prototype.slice` index normalisation. -/
def jsNorm (len : ℕ) (i : ℤ) : ℕ :=
  if i < 0 then (len - (-i).toNat) else min i.toNat len

/-- JS `slice(start, end)` on a byte buffer. -/
def jsSlice (l : List ℕ) (start endIdx : ℤ) : List ℕ :=
  (l.take (jsNorm l.length endIdx)).drop (jsNorm l.length start)

/-- One message `postMessage(WORKER_DONE_MESSAGE)` is modelled as the
number `1` appended to the outgoing message list (fired by the `cb`
attached to the last `SharedMap.set` of the record when no further newline
follows in the chunk). -/
def workerLoopAux : ℕ → List ℕ → ℕ → SMState → List ℕ → SMState × List ℕ
  | 0, _, _, st, msgs => (st, msgs)
  | fuel + 1, chunk, offset, st, msgs =>
      if offset < chunk.length then
        match findFrom newlineB chunk offset with
        | none => (st, msgs)
        | some nl =>
            let hasNextWork := (findFrom newlineB chunk (nl + 1)).isSome
            let sIdx : ℤ := match findFrom semicolonB chunk offset with
              | none => -1
              | some j => (j : ℤ)
            let stationBuffer := jsSlice chunk (offset : ℤ) sIdx
            let tempBuffer := jsSlice chunk (sIdx + 1) (nl : ℤ)
            let temp := fastParseFloat tempBuffer
            let st' := processRecord st stationBuffer temp
            let msgs' := if hasNextWork then msgs else msgs ++ [1]
            workerLoopAux fuel chunk (nl + 1) st' msgs'
      else (st, msgs)

/-- The worker message handler on a chunk: the `while` loop starting at
`offset = 0`.  The loop advances `offset` past a newline on every
iteration, so `chunk.length + 1` iterations always suffice. -/
def workerLoop (chunk : List ℕ) (st : SMState) : SMState × List ℕ :=
  workerLoopAux (chunk.length + 1) chunk 0 st []

/-- Just the table state after a worker processes a chunk. -/
def workerRun (chunk : List ℕ) (st : SMState) : SMState :=
  (workerLoop chunk st).1

/-! ### The coordinator chunk splitter
(scheduler-worker.js lines 73-104)

The `data` handler prepends the residual buffer, cuts at the last newline,
dispatches the prefix (round-robin — all workers share the same table, so
we record the dispatched spans in order) and retains the suffix.  The
`end` handler only closes the stream and sets `allSent`; it posts nothing
to the workers. -/

/-- Last index of byte `b` in `l` (JS `lastIndexOf` as an option). -/
def lastIdxOf (b : ℕ) (l : List ℕ) : Option ℕ :=
  (l.reverse.findIdx? (· = b)).map (fun j => l.length - 1 - j)

structure CoordState where
  residual : List ℕ
  spans : List (List ℕ)
  sentChunk : ℕ
  allSent : Bool

def CoordState.init : CoordState := ⟨[], [], 0, false⟩

/-- The `stream.on('data')` handler. -/
def coordData (cs : CoordState) (chunk0 : List ℕ) : CoordState :=
  let chunk := cs.residual ++ chunk0
  match lastIdxOf newlineB chunk with
  | some i =>
      { cs with
        residual := chunk.drop (i + 1)
        spans := cs.spans ++ [chunk.take (i + 1)]
        sentChunk := cs.sentChunk + 1 }
  | none => { cs with residual := chunk }

/-- The `stream.on('end')` handler: `stream.close(); allSent = true` — the
residual is not dispatched and no message is sent to any worker. -/
def coordEnd (cs : CoordState) : CoordState :=
  { cs with allSent := true }

/-- Feed a sequence of raw stream buffers through the `data` handler. -/
def coordRun (bs : List (List ℕ)) : CoordState :=
  bs.foldl coordData CoordState.init

/-! ### Result printing (scheduler-worker.js lines 182-239)

The printer reads `Int32Array` cells and computes `min/10`,
`sum/10/count` and `Math.round(10 * num)/10` in binary64 doubles.  Every
finite double is an exact dyadic rational `m · 2^e`; division and
multiplication are correctly rounded to 53 significant bits (nearest,
ties to even), and ES `Math.round` returns the integer closest to the
double's exact value, halves toward `+∞` (normal range only: none of the
quantities the table can produce is subnormal). -/

/-- A binary64 double in the printer: value `m · 2^e` (canonically
`2^52 ≤ |m| < 2^53`, or `m = 0, e = 0`), an infinity, or `NaN`. -/
inductive JSD where
  | fin (m : ℤ) (e : ℤ)
  | inf (pos : Bool)
  | nan
deriving DecidableEq

/-- Round the dyadic `m · 2^e` to 53 significant bits (nearest, ties to
even, overflow to infinity) and normalize the mantissa. -/
def canonD (m : ℤ) (e : ℤ) : JSD :=
  if m = 0 then JSD.fin 0 0
  else
    let n := m.natAbs
    let L := floorLog2W n + 1
    if L ≤ 53 then
      if (1023 : ℤ) < e + ((L : ℤ) - 1) then JSD.inf (0 < m)
      else JSD.fin (m * 2 ^ (53 - L)) (e - ((53 : ℤ) - (L : ℤ)))
    else
      let s := L - 53
      let n2 := roundEvenMult n (2 ^ s) / 2 ^ s
      let e2 := e + (s : ℤ)
      if n2 = 2 ^ 53 then
        if (1023 : ℤ) < e2 + 53 then JSD.inf (0 < m)
        else JSD.fin (m.sign * 2 ^ 52) (e2 + 1)
      else
        if (1023 : ℤ) < e2 + 52 then JSD.inf (0 < m)
        else JSD.fin (m.sign * n2) e2

/-- The double holding an `Int32Array` read (always exact). -/
def ofIntD (n : ℤ) : JSD := canonD n 0

/-- Round `num / den` (both positive) to the nearest integer, ties to
even. -/
def rheDiv (num den : ℕ) : ℕ :=
  let q := num / den
  let r := num % den
  if 2 * r < den then q
  else if den < 2 * r then q + 1
  else if q % 2 = 0 then q else q + 1

/-- Correctly rounded 53-bit quotient of positive integers: a mantissa in
`[2^52, 2^53)` and an exponent with `a / b ≈ mant · 2 ^ E`. -/
def divCore (a b : ℕ) : ℕ × ℤ :=
  let g : ℤ := (floorLog2W a : ℤ) - (floorLog2W b : ℤ)
  let E : ℤ := if b * 2 ^ g.toNat ≤ a * 2 ^ (-g).toNat then g else g - 1
  let s : ℤ := 52 - E
  let mant := if 0 ≤ s then rheDiv (a * 2 ^ s.toNat) b else rheDiv a (b * 2 ^ (-s).toNat)
  if mant = 2 ^ 53 then (2 ^ 52, E - 51) else (mant, E - 52)

/-- IEEE binary64 division. -/
def dDivD : JSD → JSD → JSD
  | JSD.nan, _ => JSD.nan
  | _, JSD.nan => JSD.nan
  | JSD.inf _, JSD.inf _ => JSD.nan
  | JSD.inf p, JSD.fin m _ => JSD.inf (p == decide (0 ≤ m))
  | JSD.fin _ _, JSD.inf _ => JSD.fin 0 0
  | JSD.fin m1 e1, JSD.fin m2 e2 =>
      if m2 = 0 then (if m1 = 0 then JSD.nan else JSD.inf (0 < m1))
      else if m1 = 0 then JSD.fin 0 0
      else
        let p := divCore m1.natAbs m2.natAbs
        let sg : ℤ := if (0 < m1) = (0 < m2) then 1 else -1
        let Et := p.2 + e1 - e2
        if (1023 : ℤ) < Et + 52 then JSD.inf (0 < sg)
        else JSD.fin (sg * (p.1 : ℤ)) Et

/-- IEEE binary64 multiplication. -/
def dMulD : JSD → JSD → JSD
  | JSD.nan, _ => JSD.nan
  | _, JSD.nan => JSD.nan
  | JSD.inf p, JSD.inf q => JSD.inf (p == q)
  | JSD.inf p, JSD.fin m _ => if m = 0 then JSD.nan else JSD.inf (p == decide (0 < m))
  | JSD.fin m _, JSD.inf p => if m = 0 then JSD.nan else JSD.inf (p == decide (0 < m))
  | JSD.fin m1 e1, JSD.fin m2 e2 => canonD (m1 * m2) (e1 + e2)

/-- ES `Math.round` of the finite double `m · 2^e`: the exact
`⌊m·2^e + 1/2⌋` (closest integer, halves toward `+∞`). -/
def halfUpD (m : ℤ) (e : ℤ) : ℤ :=
  if 0 ≤ e then m * 2 ^ e.toNat
  else (2 * m + 2 ^ (-e).toNat).fdiv (2 ^ ((-e).toNat + 1))

/-- `(m / 10).toFixed(1)` for an integer `m`: sign, integer digits, one
fractional digit. -/
def fixed1 (m : ℤ) : String :=
  (if m < 0 then "-" else "") ++ toString (m.natAbs / 10) ++ "." ++ toString (m.natAbs % 10)

/-- `round` (scheduler-worker.js lines 235-239):
`(Math.round(10 * num) / 10).toFixed(1)` — a double multiplication by
`10`, ES `Math.round` on its exact value, and `/10` plus `toFixed(1)`
printing that integer's digits with one decimal (`fixed1`, exact at
every magnitude an `Int32Array`-fed table produces). -/
def round (num : JSD) : String :=
  match dMulD (ofIntD 10) num with
  | JSD.nan => "NaN"
  | JSD.inf p => if p then "Infinity" else "-Infinity"
  | JSD.fin m e => fixed1 (halfUpD m e)

/-- `new TextDecoder().decode` on ASCII bytes (all label bytes in scope
are `< 128`, where UTF-8 decoding is the identity on code points). -/
def decodeAscii (l : List ℕ) : String :=
  String.mk (l.map Char.ofNat)

/-- Lexicographic order on byte lists; on ASCII byte lists this is exactly
the JS string comparison `a.name < b.name` used by the sort comparator
(UTF-16 code-unit order coincides with byte order below 128). -/
def lexLe : List ℕ → List ℕ → Bool
  | [], _ => true
  | _ :: _, [] => false
  | a :: as, b :: bs => if a < b then true else if b < a then false else lexLe as bs

/-- The sort order on labels. -/
def labelR (a b : List ℕ) : Prop := lexLe a b = true

instance : DecidableRel labelR := fun a b =>
  inferInstanceAs (Decidable (lexLe a b = true))

/-- The sort order the printer uses on `(slot, name)` entries: compare the
decoded names. -/
def stationR (a b : ℕ × List ℕ) : Prop := lexLe a.2 b.2 = true

instance : DecidableRel stationR := fun a b =>
  inferInstanceAs (Decidable (lexLe a.2 b.2 = true))

/-- Joining rendered entries with a separator, as the printer's indexed
loop does. -/
def joinSep (sep : String) : List String → String
  | [] => ""
  | s :: rest => rest.foldl (fun acc x => acc ++ sep ++ x) s

/-- The name cell of slot `i`:
`stationNamesTypedArray.slice(i*100, (i+1)*100).filter(Boolean)`
(`filter(Boolean)` drops zero bytes). -/
def nameSlice (st : SMState) (i : ℕ) : List ℕ :=
  ((List.range STATION_NAME_BYTE_SIZE).map (fun j => st.names (i * STATION_NAME_BYTE_SIZE + j))).filter
    (fun b => b != 0)

/-- The pre-sort station list of `printCompiledResults` (lines 183-190):
slots with a nonempty filtered name cell, with their original index. -/
def gatherStations (st : SMState) : List (ℕ × List ℕ) :=
  (List.range BLOCK_COUNT).filterMap (fun i =>
    let s := nameSlice st i
    if s = [] then none else some (i, s))

/-- One `label=min/mean/max` entry (lines 201-221), reading the four cells
of the entry's slot. -/
def renderEntry (st : SMState) (e : ℕ × List ℕ) : String :=
  decodeAscii e.2 ++ "=" ++
    round (dDivD (ofIntD (st.agg (e.1 * BLOCK_SIZE + MIN_OFFSET))) (ofIntD 10)) ++ "/" ++
    round (dDivD (dDivD (ofIntD (st.agg (e.1 * BLOCK_SIZE + SUM_OFFSET))) (ofIntD 10))
      (ofIntD (st.agg (e.1 * BLOCK_SIZE + COUNT_OFFSET)))) ++ "/" ++
    round (dDivD (ofIntD (st.agg (e.1 * BLOCK_SIZE + MAX_OFFSET))) (ofIntD 10))

/-- `printCompiledResults` (lines 182-224) as the full string written to
standard output, a single `{...}` line followed by a newline. -/
def printCompiledResults (st : SMState) : String :=
  let sortedStations := (gatherStations st).insertionSort stationR
  let body := sortedStations.enum.foldl
    (fun acc ie => acc ++ (if 0 < ie.1 then ", " else "") ++ renderEntry st ie.2) ""
  "\x7b" ++ body ++ "\x7d\n"

/-! ### Spec-side definitions

These are stated from the specification's words (record grammar, exact
tenths value, true per-label statistics, the output grammar) to be
compared against the code-side functions above. -/

def isDigitB (b : ℕ) : Bool := decide (48 ≤ b) && decide (b ≤ 57)

/-- Well-formed value span per the spec: one optional leading minus sign,
one or more ASCII digits, exactly one decimal-point byte before the final
digit. -/
def wfValueB (v : List ℕ) : Bool :=
  let u := if v.head? = some minusB then v.tail else v
  match u.reverse with
  | d :: p :: rest => isDigitB d && decide (p = dotB) && !rest.isEmpty && rest.all isDigitB
  | _ => false

/-- Well-formed label per the spec: 1-100 bytes, no separator, no line
terminator; additionally no zero byte and ASCII-only, which the printer
relies on. -/
def wfLabelB (l : List ℕ) : Bool :=
  !l.isEmpty && decide (l.length ≤ 100) &&
    l.all (fun b => b != semicolonB && b != newlineB && b != 0 && decide (b < 128))

def wfRecordB (r : List ℕ × List ℕ) : Bool := wfLabelB r.1 && wfValueB r.2

def wfInput (rs : List (List ℕ × List ℕ)) : Bool := rs.all wfRecordB

/-- The decimal digits of a value span read left to right. -/
def digitsVal (ds : List ℕ) : ℕ := ds.foldl (fun acc b => acc * 10 + (b - 48)) 0

/-- The exact integer number of tenths denoted by a well-formed value
span (spec-side). -/
def tenthsVal (v : List ℕ) : ℤ :=
  let neg := v.head? = some minusB
  let u := if neg then v.tail else v
  let mag : ℕ := digitsVal (u.filter (fun b => b != dotB))
  if neg then -(mag : ℤ) else (mag : ℤ)

/-- `label;value\n`. -/
def encodeRecord (r : List ℕ × List ℕ) : List ℕ :=
  r.1 ++ [semicolonB] ++ r.2 ++ [newlineB]

def encodeInput (rs : List (List ℕ × List ℕ)) : List ℕ :=
  (rs.map encodeRecord).join

/-- The slot a label hashes to. -/
def slotOf (l : List ℕ) : ℕ := fnv1aHash l % BLOCK_COUNT

/-- The parsed `(label, tenths)` stream of a record list. -/
def parsedRecords (rs : List (List ℕ × List ℕ)) : List (List ℕ × ℤ) :=
  rs.map (fun r => (r.1, tenthsVal r.2))

/-- The tenths values of the records carrying label `l`, in input order. -/
def valuesOf (rs : List (List ℕ × List ℕ)) (l : List ℕ) : List ℤ :=
  (rs.filter (fun r => decide (r.1 = l))).map (fun r => tenthsVal r.2)

def cntOf (rs : List (List ℕ × List ℕ)) (l : List ℕ) : ℕ := (valuesOf rs l).length

/-- The minimum of a value list (`0` on the empty list, which never occurs
for an observed label). -/
def listMin : List ℤ → ℤ
  | [] => 0
  | v :: vs => vs.foldl min v

def listMax : List ℤ → ℤ
  | [] => 0
  | v :: vs => vs.foldl max v

def mnOf (rs : List (List ℕ × List ℕ)) (l : List ℕ) : ℤ := listMin (valuesOf rs l)

def mxOf (rs : List (List ℕ × List ℕ)) (l : List ℕ) : ℤ := listMax (valuesOf rs l)

def smOf (rs : List (List ℕ × List ℕ)) (l : List ℕ) : ℤ := (valuesOf rs l).sum

/-- The distinct labels of the input, in first-occurrence order. -/
def labelsOf (rs : List (List ℕ × List ℕ)) : List (List ℕ) :=
  (rs.map Prod.fst).dedup

/-- No two distinct labels of the input hash to the same slot. -/
def CollisionFree (rs : List (List ℕ × List ℕ)) : Prop :=
  (labelsOf rs).Pairwise (fun a b => slotOf a ≠ slotOf b)

def inI32 (x : ℤ) : Bool := decide (-(2 ^ 31) ≤ x) && decide (x < 2 ^ 31)

/-- All running sums starting from `acc` stay inside the signed 32-bit
range. -/
def sumsOK : ℤ → List ℤ → Bool
  | _, [] => true
  | acc, v :: vs => inI32 (acc + v) && sumsOK (acc + v) vs

/-- Every per-record value, every per-label running sum and every
per-label count fits in a signed 32-bit cell (the table stores `Int32`). -/
def rangeOK (rs : List (List ℕ × List ℕ)) : Bool :=
  (labelsOf rs).all (fun l =>
    (valuesOf rs l).all inI32 && sumsOK 0 (valuesOf rs l) &&
      decide ((cntOf rs l : ℤ) < 2 ^ 31))

/-- The state after the worker record loop has consumed the whole input
as one newline-terminated chunk, starting from the zero-initialised
table. -/
def runRecords (rs : List (List ℕ × List ℕ)) : SMState :=
  workerRun (encodeInput rs) SMState.init

/-- Spec-side rounding: half away from zero, at one fractional digit. -/
def roundAwayFmt (q : ℚ) : String :=
  fixed1 (if 0 ≤ q then ⌊10 * q + 1 / 2⌋ else -⌊-(10 * q) + 1 / 2⌋)

/-- The input's distinct labels in lexicographic byte order. -/
def specSortedLabels (rs : List (List ℕ × List ℕ)) : List (List ℕ) :=
  (labelsOf rs).insertionSort labelR

/-- One output entry built from the true statistics of `l`, with the
spec's half-away-from-zero rounding. -/
def specEntryAway (rs : List (List ℕ × List ℕ)) (l : List ℕ) : String :=
  decodeAscii l ++ "=" ++
    roundAwayFmt ((mnOf rs l : ℚ) / 10) ++ "/" ++
    roundAwayFmt ((smOf rs l : ℚ) / 10 / (cntOf rs l : ℚ)) ++ "/" ++
    roundAwayFmt ((mxOf rs l : ℚ) / 10)

/-- The whole output line predicted by the spec sentence of C1
(half-away-from-zero rounding). -/
def specRenderAway (rs : List (List ℕ × List ℕ)) : String :=
  "\x7b" ++ joinSep (", ") ((specSortedLabels rs).map (specEntryAway rs)) ++ "\x7d\n"

/-- One output entry built from the true statistics of `l`, formatted the
way the code formats: the binary64 chain `min/10`, `sum/10/count`,
`Math.round(10 * num)/10`, `toFixed(1)`. -/
def specEntryD (rs : List (List ℕ × List ℕ)) (l : List ℕ) : String :=
  decodeAscii l ++ "=" ++
    round (dDivD (ofIntD (mnOf rs l)) (ofIntD 10)) ++ "/" ++
    round (dDivD (dDivD (ofIntD (smOf rs l)) (ofIntD 10)) (ofIntD (cntOf rs l : ℤ))) ++ "/" ++
    round (dDivD (ofIntD (mxOf rs l)) (ofIntD 10))

/-- The whole output line with true statistics and the code's
double-chain formatting. -/
def specRenderD (rs : List (List ℕ × List ℕ)) : String :=
  "\x7b" ++ joinSep (", ") ((specSortedLabels rs).map (specEntryD rs)) ++ "\x7d\n"

/-- The unsigned part of the span holds at most 15 digit bytes: every
double intermediate of the parse loop is then exact. -/
def shortValueB (v : List ℕ) : Bool :=
  decide (((if v.head? = some minusB then v.tail else v).filter
    (fun b => b != dotB)).length ≤ 15)

def shortInput (rs : List (List ℕ × List ℕ)) : Bool :=
  rs.all (fun r => shortValueB r.2)

/-! ### Correctness of `fastParseFloat` on well-formed value spans -/

lemma isDigitB_iff {b : ℕ} : isDigitB b = true ↔ 48 ≤ b ∧ b ≤ 57 := by
  simp [isDigitB]

lemma isDigitB_ne_dot {b : ℕ} (h : isDigitB b = true) : b ≠ dotB := by
  rw [isDigitB_iff] at h; simp [dotB]; omega

lemma isDigitB_ne_minus {b : ℕ} (h : isDigitB b = true) : b ≠ minusB := by
  rw [isDigitB_iff] at h; simp [minusB]; omega

lemma digitsVal_append_singleton (l : List ℕ) (a : ℕ) :
    digitsVal (l ++ [a]) = digitsVal l * 10 + (a - 48) := by
  simp [digitsVal, List.foldl_append]

lemma dblRoundZ_small {x : ℤ} (h : x.natAbs < 2 ^ 53) : dblRoundZ x = JSVal.int x := by
  simp only [dblRoundZ, dblRoundNatW, if_pos h]
  rw [if_pos (Nat.lt_trans h (by norm_num : (2 : ℕ) ^ 53 < 2 ^ 1024))]
  rw [Int.sign_mul_natAbs]

lemma dMulV_int (a b : ℤ) : dMulV (JSVal.int a) (JSVal.int b) = dblRoundZ (a * b) := rfl

lemma dAddV_int (a b : ℤ) : dAddV (JSVal.int a) (JSVal.int b) = dblRoundZ (a + b) := rfl

lemma dMinV_int (m t : ℤ) : dMinV m (JSVal.int t) = JSVal.int (min m t) := rfl

lemma dMaxV_int (m t : ℤ) : dMaxV m (JSVal.int t) = JSVal.int (max m t) := rfl

lemma jsToInt32_int (n : ℤ) : jsToInt32 (JSVal.int n) = toInt32 n := rfl

lemma pow10V_small {pow : ℕ} (h : pow ≤ 15) : pow10V pow = JSVal.int (10 ^ pow) := by
  unfold pow10V
  apply dblRoundZ_small
  have h1 : ((10 : ℤ) ^ pow).natAbs = 10 ^ pow := by
    rw [Int.natAbs_pow]
    rfl
  rw [h1]
  calc 10 ^ pow ≤ 10 ^ 15 := Nat.pow_le_pow_right (by norm_num) h
    _ < 2 ^ 53 := by norm_num

lemma fppLoop_dot (rest : List ℕ) (pow : ℕ) (sum : JSVal) :
    fppLoop (dotB :: rest) pow sum = fppLoop rest pow sum := rfl

lemma fppLoop_digit {b : ℕ} (hb : b ≠ dotB) (rest : List ℕ) (pow : ℕ) (sum : JSVal) :
    fppLoop (b :: rest) pow sum =
      fppLoop rest (pow + 1)
        (dAddV sum (dMulV (JSVal.int ((b : ℤ) - (zeroB : ℤ))) (pow10V pow))) := by
  show (if b = dotB then fppLoop rest pow sum else _) = _
  rw [if_neg hb]

/-- The exact accumulation for at most 15 digits: every product
`digit · 10^pow` and every partial sum stays below `2^53`, so no double
operation rounds. -/
lemma fppLoop_digits :
    ∀ (u : List ℕ) (pow acc : ℕ), (∀ b ∈ u, isDigitB b = true) →
      acc < 10 ^ pow → pow + u.length ≤ 15 →
      fppLoop u pow (JSVal.int acc) =
        JSVal.int ((acc : ℤ) + (digitsVal u.reverse : ℤ) * 10 ^ pow) := by
  intro u
  induction u with
  | nil =>
      intro pow acc _ _ _
      show JSVal.int (acc : ℤ) = _
      simp [digitsVal]
  | cons b rest ih =>
      intro pow acc hdig hacc hlen
      have hb := hdig b (by simp)
      obtain ⟨hb48, hb57⟩ := isDigitB_iff.mp hb
      have hpow14 : pow ≤ 14 := by simp at hlen; omega
      have hp10 : (10 : ℕ) ^ pow ≤ 10 ^ 14 := Nat.pow_le_pow_right (by norm_num) hpow14
      have hterm : ((b : ℤ) - (zeroB : ℤ)) * 10 ^ pow = (((b - 48) * 10 ^ pow : ℕ) : ℤ) := by
        norm_num [zeroB]
        push_cast [hb48]
        ring
      have hmulsmall : (((b - 48) * 10 ^ pow : ℕ) : ℤ).natAbs < 2 ^ 53 := by
        rw [Int.natAbs_ofNat]
        calc (b - 48) * 10 ^ pow ≤ 9 * 10 ^ 14 :=
              Nat.mul_le_mul (by omega) hp10
          _ < 2 ^ 53 := by norm_num
      have haddsmall : ((acc : ℤ) + (((b - 48) * 10 ^ pow : ℕ) : ℤ)).natAbs < 2 ^ 53 := by
        have h10 : (10 : ℕ) ^ (pow + 1) ≤ 10 ^ 15 := Nat.pow_le_pow_right (by norm_num) (by simp at hlen; omega)
        have hs : acc + (b - 48) * 10 ^ pow < 10 ^ (pow + 1) := by
          have : (b - 48) * 10 ^ pow ≤ 9 * 10 ^ pow := Nat.mul_le_mul_right _ (by omega)
          calc acc + (b - 48) * 10 ^ pow < 10 ^ pow + 9 * 10 ^ pow := by omega
            _ = 10 ^ (pow + 1) := by ring
        have : acc + (b - 48) * 10 ^ pow < 2 ^ 53 := by
          calc acc + (b - 48) * 10 ^ pow < 10 ^ (pow + 1) := hs
            _ ≤ 10 ^ 15 := h10
            _ < 2 ^ 53 := by norm_num
        omega
      have hsum : (acc : ℤ) + (((b - 48) * 10 ^ pow : ℕ) : ℤ) =
          ((acc + (b - 48) * 10 ^ pow : ℕ) : ℤ) := by push_cast; ring
      rw [fppLoop_digit (isDigitB_ne_dot hb)]
      rw [pow10V_small (by omega), dMulV_int, hterm, dblRoundZ_small hmulsmall,
        dAddV_int, dblRoundZ_small haddsmall, hsum]
      rw [ih (pow + 1) (acc + (b - 48) * 10 ^ pow)
        (fun x hx => hdig x (by simp [hx]))
        (by
          have : (b - 48) * 10 ^ pow ≤ 9 * 10 ^ pow := Nat.mul_le_mul_right _ (by omega)
          calc acc + (b - 48) * 10 ^ pow < 10 ^ pow + 9 * 10 ^ pow := by omega
            _ = 10 ^ (pow + 1) := by ring)
        (by simp at hlen ⊢; omega)]
      congr 1
      rw [show (b :: rest).reverse = rest.reverse ++ [b] from by simp,
        digitsVal_append_singleton]
      push_cast [hb48]
      ring

lemma fppCore_wf {ds : List ℕ} {d : ℕ} (hds : ∀ b ∈ ds, isDigitB b = true)
    (hd : isDigitB d = true) (hlen : ds.length + 1 ≤ 15) :
    fppCore (ds ++ [dotB, d]) = JSVal.int (digitsVal (ds ++ [d])) := by
  obtain ⟨hd48, hd57⟩ := isDigitB_iff.mp hd
  unfold fppCore
  rw [show (ds ++ [dotB, d]).reverse = d :: dotB :: ds.reverse from by simp]
  have hterm : ((d : ℤ) - (zeroB : ℤ)) * 10 ^ 0 = (((d - 48 : ℕ)) : ℤ) := by
    norm_num [zeroB]
    push_cast [hd48]
    ring
  have hstep : fppLoop (d :: dotB :: ds.reverse) 0 (JSVal.int 0) =
      fppLoop ds.reverse 1 (JSVal.int ((d - 48 : ℕ) : ℤ)) := by
    rw [fppLoop_digit (isDigitB_ne_dot hd), fppLoop_dot, pow10V_small (by norm_num),
      dMulV_int, hterm, dblRoundZ_small (by omega), dAddV_int,
      dblRoundZ_small (by omega)]
    norm_num
  rw [hstep]
  rw [fppLoop_digits ds.reverse 1 (d - 48)
    (fun x hx => hds x (by simpa using hx)) (by omega) (by simp; omega)]
  congr 1
  rw [List.reverse_reverse, digitsVal_append_singleton]
  push_cast [hd48]
  ring

lemma wfValueB_elim {v : List ℕ} (h : wfValueB v = true) :
    ∃ (ds : List ℕ) (d : ℕ), ds ≠ [] ∧ (∀ b ∈ ds, isDigitB b = true) ∧ isDigitB d = true ∧
      (v = ds ++ [dotB, d] ∨ v = minusB :: (ds ++ [dotB, d])) := by
  set u := if v.head? = some minusB then v.tail else v with hu
  have hmatch : wfValueB v =
      (match u.reverse with
        | d :: p :: rest => isDigitB d && decide (p = dotB) && !rest.isEmpty && rest.all isDigitB
        | _ => false) := rfl
  rw [hmatch] at h
  rcases hrev : u.reverse with _ | ⟨d, _ | ⟨p, rest⟩⟩ <;> rw [hrev] at h
  · simp at h
  · simp at h
  · simp only [Bool.and_eq_true, decide_eq_true_eq, Bool.not_eq_true', List.all_eq_true] at h
    obtain ⟨⟨⟨hd, hp⟩, hne⟩, hall⟩ := h
    subst hp
    have hun : u = rest.reverse ++ [dotB, d] := by
      have h2 := congrArg List.reverse hrev
      simpa using h2
    refine ⟨rest.reverse, d, ?_, ?_, hd, ?_⟩
    · intro hcon
      rw [List.reverse_eq_nil_iff] at hcon
      rw [hcon] at hne
      simp at hne
    · intro b hb
      exact hall b (by simpa using hb)
    · by_cases hh : v.head? = some minusB
      · right
        have hv : v = minusB :: v.tail := by
          cases v with
          | nil => simp at hh
          | cons a t => simp at hh; simp [hh]
        rw [hu, if_pos hh] at hun
        rw [hv, hun]
      · left
        rw [hu, if_neg hh] at hun
        exact hun

lemma filter_ne_dot (ds : List ℕ) (d : ℕ) (hds : ∀ b ∈ ds, isDigitB b = true)
    (hd : isDigitB d = true) :
    (ds ++ [dotB, d]).filter (fun b => b != dotB) = ds ++ [d] := by
  rw [List.filter_append]
  have h1 : ds.filter (fun b => b != dotB) = ds := by
    apply List.filter_eq_self.mpr
    intro b hb
    simpa using isDigitB_ne_dot (hds b hb)
  have h2 : ([dotB, d] : List ℕ).filter (fun b => b != dotB) = [d] := by
    have hdd : (d != dotB) = true := by simpa using isDigitB_ne_dot hd
    simp [List.filter, hdd]
  rw [h1, h2]


lemma fastParseFloat_of_digits {ds : List ℕ} {d : ℕ} (hne : ds ≠ [])
    (hds : ∀ b ∈ ds, isDigitB b = true) (hd : isDigitB d = true)
    (hlen : ds.length + 1 ≤ 15) :
    fastParseFloat (ds ++ [dotB, d]) = JSVal.int (digitsVal (ds ++ [d])) := by
  rcases ds with _ | ⟨b0, ds'⟩
  · exact absurd rfl hne
  have hb0 : isDigitB b0 = true := hds b0 (by simp)
  calc fastParseFloat ((b0 :: ds') ++ [dotB, d])
      = fppCore ((b0 :: ds') ++ [dotB, d]) := by
        rw [List.cons_append]
        simp only [fastParseFloat, if_neg (isDigitB_ne_minus hb0)]
    _ = JSVal.int (digitsVal ((b0 :: ds') ++ [d])) := fppCore_wf hds hd hlen

lemma head_ne_minus_of_digits {ds : List ℕ} {d : ℕ} (hne : ds ≠ [])
    (hds : ∀ b ∈ ds, isDigitB b = true) :
    ¬((ds ++ [dotB, d]).head? = some minusB) := by
  rcases ds with _ | ⟨b0, ds'⟩
  · exact absurd rfl hne
  have hb0 : isDigitB b0 = true := hds b0 (by simp)
  simp [isDigitB_ne_minus hb0]

lemma tenthsVal_of_digits {ds : List ℕ} {d : ℕ} (hne : ds ≠ [])
    (hds : ∀ b ∈ ds, isDigitB b = true) (hd : isDigitB d = true) :
    tenthsVal (ds ++ [dotB, d]) = (digitsVal (ds ++ [d]) : ℤ) := by
  rcases ds with _ | ⟨b0, ds'⟩
  · exact absurd rfl hne
  have hb0 : isDigitB b0 = true := hds b0 (by simp)
  have hfil := filter_ne_dot (b0 :: ds') d hds hd
  simp only [List.cons_append] at hfil ⊢
  simp [tenthsVal, isDigitB_ne_minus hb0, hfil]

lemma tenthsVal_of_digits_neg {ds : List ℕ} {d : ℕ} (hne : ds ≠ [])
    (hds : ∀ b ∈ ds, isDigitB b = true) (hd : isDigitB d = true) :
    tenthsVal (minusB :: (ds ++ [dotB, d])) = -(digitsVal (ds ++ [d]) : ℤ) := by
  simp [tenthsVal, filter_ne_dot ds d hds hd]

lemma shortValueB_elim {ds : List ℕ} {d : ℕ} (hne : ds ≠ [])
    (hds : ∀ b ∈ ds, isDigitB b = true) (hd : isDigitB d = true)
    (hs : shortValueB (ds ++ [dotB, d]) = true ∨
      shortValueB (minusB :: (ds ++ [dotB, d])) = true) :
    ds.length + 1 ≤ 15 := by
  have hfil := filter_ne_dot ds d hds hd
  rcases hs with hs | hs
  · rw [shortValueB, if_neg (head_ne_minus_of_digits hne hds)] at hs
    rw [hfil] at hs
    simpa using hs
  · rw [shortValueB] at hs
    rw [show (if (minusB :: (ds ++ [dotB, d])).head? = some minusB
        then (minusB :: (ds ++ [dotB, d])).tail else minusB :: (ds ++ [dotB, d])) =
        ds ++ [dotB, d] from by simp] at hs
    rw [hfil] at hs
    simpa using hs

/-- On every well-formed value span of at most 15 digits every double
operation of the parse loop is exact: `fastParseFloat` returns the exact
integer number of tenths. -/
theorem fastParseFloat_wfValue {v : List ℕ} (h : wfValueB v = true)
    (hs : shortValueB v = true) :
    fastParseFloat v = JSVal.int (tenthsVal v) := by
  obtain ⟨ds, d, hne, hds, hd, hv | hv⟩ := wfValueB_elim h
  · rw [hv] at hs ⊢
    have hlen := shortValueB_elim hne hds hd (Or.inl hs)
    rw [fastParseFloat_of_digits hne hds hd hlen, tenthsVal_of_digits hne hds hd]
  · rw [hv] at hs ⊢
    have hlen := shortValueB_elim hne hds hd (Or.inr hs)
    have hstep : fastParseFloat (minusB :: (ds ++ [dotB, d])) =
        dNegV (fastParseFloat (ds ++ [dotB, d])) := by
      simp [fastParseFloat]
    rw [hstep, fastParseFloat_of_digits hne hds hd hlen, tenthsVal_of_digits_neg hne hds hd]
    rfl

/-! ### Frame lemmas for the shared table -/

lemma toInt32_eq_self {x : ℤ} (h1 : -(2 ^ 31) ≤ x) (h2 : x < 2 ^ 31) : toInt32 x = x := by
  unfold toInt32; omega

lemma inI32_iff {x : ℤ} : inI32 x = true ↔ -(2 ^ 31) ≤ x ∧ x < 2 ^ 31 := by
  simp [inI32]

lemma toInt32_of_inI32 {x : ℤ} (h : inI32 x = true) : toInt32 x = x := by
  rw [inI32_iff] at h; exact toInt32_eq_self h.1 h.2

lemma getIndex_eq (k : List ℕ) (es : ℕ) : getIndex k es = slotOf k * es := rfl

lemma slotOf_lt (l : List ℕ) : slotOf l < BLOCK_COUNT :=
  Nat.mod_lt _ (by norm_num [BLOCK_COUNT])

lemma setNum_agg_eq (st : SMState) (k : List ℕ) (v : ℤ) (o : ℕ) :
    (setNum st k v o).agg (getIndex k BLOCK_SIZE + o) = toInt32 v := by
  simp [setNum]

lemma setNum_agg_ne (st : SMState) (k : List ℕ) (v : ℤ) (o : ℕ) {i : ℕ}
    (h : i ≠ getIndex k BLOCK_SIZE + o) :
    (setNum st k v o).agg i = st.agg i := by
  simp [setNum, h]

lemma setNum_names (st : SMState) (k : List ℕ) (v : ℤ) (o : ℕ) :
    (setNum st k v o).names = st.names := rfl

lemma setName_agg (st : SMState) (k val : List ℕ) :
    (setName st k val).agg = st.agg := rfl

lemma setName_names_in (st : SMState) (k val : List ℕ) {i : ℕ}
    (h1 : getIndex k STATION_NAME_BYTE_SIZE ≤ i)
    (h2 : i < getIndex k STATION_NAME_BYTE_SIZE + val.length) :
    (setName st k val).names i = val.getD (i - getIndex k STATION_NAME_BYTE_SIZE) 0 % 256 := by
  simp only [setName]
  rw [if_pos ⟨h1, h2⟩]

lemma setName_names_out (st : SMState) (k val : List ℕ) {i : ℕ}
    (h : ¬(getIndex k STATION_NAME_BYTE_SIZE ≤ i ∧
        i < getIndex k STATION_NAME_BYTE_SIZE + val.length)) :
    (setName st k val).names i = st.names i := by
  simp only [setName]
  rw [if_neg h]

lemma getNum_setNum_same (st : SMState) (k : List ℕ) (v : ℤ) (o : ℕ) :
    getNum (setNum st k v o) k o = toInt32 v := setNum_agg_eq st k v o

lemma getNum_setNum_same_key (st : SMState) (k : List ℕ) (v : ℤ) {o o' : ℕ}
    (h : o' ≠ o) : getNum (setNum st k v o) k o' = getNum st k o' := by
  unfold getNum
  exact setNum_agg_ne st k v o (by omega)

lemma toInt32_idem (x : ℤ) : toInt32 (toInt32 x) = toInt32 x := by
  unfold toInt32
  omega

lemma getNum_setNumD_same_key (st : SMState) (k : List ℕ) (x : JSVal) {o o' : ℕ}
    (h : o' ≠ o) : getNum (setNumD st k x o) k o' = getNum st k o' :=
  getNum_setNum_same_key st k (jsToInt32 x) h

lemma cell_ne_of_slot_ne {s1 s2 o1 o2 : ℕ} (h : s1 ≠ s2) (h1 : o1 < 4) (h2 : o2 < 4) :
    s1 * 4 + o1 ≠ s2 * 4 + o2 := by omega

lemma getNum_setNum_other (st : SMState) {k k' : List ℕ} (v : ℤ) {o o' : ℕ}
    (hs : slotOf k ≠ slotOf k') (ho : o < 4) (ho' : o' < 4) :
    getNum (setNum st k v o) k' o' = getNum st k' o' := by
  unfold getNum
  refine setNum_agg_ne st k v o ?_
  rw [getIndex_eq, getIndex_eq]
  exact cell_ne_of_slot_ne (fun hc => hs hc.symm) ho' ho

/-- C10: a numeric `SharedMap.set` on the aggregation array writes exactly
the `Int32` cell at index `(fnv1aHash(label) mod 10007) * 4 + offset`,
leaves every other aggregation cell unchanged, leaves the station-name
side table untouched, and therefore never alters the aggregate cells of
any label whose hash maps to a different slot. -/
theorem C10_set_writes_single_cell (st : SMState) (key : List ℕ) (v : ℤ) (offset : ℕ)
    (hoff : offset < 4) :
    (setNum st key v offset).agg ((fnv1aHash key % 10007) * 4 + offset) = toInt32 v ∧
    (∀ i, i ≠ (fnv1aHash key % 10007) * 4 + offset → (setNum st key v offset).agg i = st.agg i) ∧
    (setNum st key v offset).names = st.names ∧
    (∀ l', fnv1aHash l' % 10007 ≠ fnv1aHash key % 10007 → ∀ o' < 4,
      (setNum st key v offset).agg ((fnv1aHash l' % 10007) * 4 + o') =
        st.agg ((fnv1aHash l' % 10007) * 4 + o')) := by
  refine ⟨setNum_agg_eq st key v offset, ?_, rfl, ?_⟩
  · intro i hi
    exact setNum_agg_ne st key v offset hi
  · intro l' hl' o' ho'
    refine setNum_agg_ne st key v offset ?_
    rw [getIndex_eq]
    exact cell_ne_of_slot_ne hl' ho' hoff

/-- Witness for C10 at a concrete call: storing `7` at the `SUM` cell of
label `"A"`. -/
theorem C10_set_writes_single_cell_witness :
    (3 : ℕ) < 4 ∧
    (setNum SMState.init [65] 7 3).agg ((fnv1aHash [65] % 10007) * 4 + 3) = toInt32 7 ∧
    (setNum SMState.init [65] 7 3).names = SMState.init.names := by
  refine ⟨by norm_num, (C10_set_writes_single_cell SMState.init [65] 7 3 (by norm_num)).1,
    (C10_set_writes_single_cell SMState.init [65] 7 3 (by norm_num)).2.2.1⟩

/-! ### The worker loop over well-formed chunks -/

lemma findIdx?_append_cons (p : ℕ → Bool) (B : List ℕ) (x : ℕ) (hx : p x = true) :
    ∀ (A : List ℕ) (i : ℕ), (∀ a ∈ A, p a = false) →
      List.findIdx? p (A ++ x :: B) i = some (i + A.length) := by
  intro A
  induction A with
  | nil => intro i _; simp [List.findIdx?_cons, hx]
  | cons a A' ih =>
      intro i hA
      rw [List.cons_append, List.findIdx?_cons, if_neg (by simp [hA a (by simp)]),
        ih (i + 1) (fun a' ha' => hA a' (by simp [ha']))]
      congr 1
      simp
      omega

lemma findFrom_some {b : ℕ} {chunk : List ℕ} {start : ℕ} {A B : List ℕ}
    (hd : chunk.drop start = A ++ b :: B) (hA : b ∉ A) :
    findFrom b chunk start = some (start + A.length) := by
  unfold findFrom
  rw [hd, findIdx?_append_cons _ B b (by simp) A 0
    (fun a ha => by simp; exact fun hc => hA (hc ▸ ha))]
  simp [Nat.add_comm]

lemma findFrom_isSome_iff {b : ℕ} {chunk : List ℕ} {start : ℕ} :
    (findFrom b chunk start).isSome = true ↔ b ∈ chunk.drop start := by
  unfold findFrom
  have hmap : (Option.map (· + start) ((chunk.drop start).findIdx? (· = b))).isSome
      = ((chunk.drop start).findIdx? (· = b)).isSome := by
    rcases (chunk.drop start).findIdx? (· = b) with _ | j <;> rfl
  rw [hmap, List.findIdx?_isSome]
  simp [List.any_eq_true]

lemma jsSlice_segment {chunk : List ℕ} {s : ℕ} {A B : List ℕ}
    (hd : chunk.drop s = A ++ B) :
    jsSlice chunk (s : ℤ) ((s + A.length : ℕ) : ℤ) = A := by
  have e1 : jsNorm chunk.length ((s + A.length : ℕ) : ℤ) = min (s + A.length) chunk.length := by
    unfold jsNorm
    rw [if_neg (by omega)]
    omega
  have e2 : jsNorm chunk.length (s : ℤ) = min s chunk.length := by
    unfold jsNorm
    rw [if_neg (by omega)]
    omega
  unfold jsSlice
  rw [e1, e2]
  by_cases hs : s ≤ chunk.length
  · have hlen : (chunk.drop s).length = chunk.length - s := List.length_drop s chunk
    rw [hd] at hlen
    simp only [List.length_append] at hlen
    have h1 : min (s + A.length) chunk.length = s + A.length := by omega
    have h2 : min s chunk.length = s := by omega
    rw [h1, h2, List.drop_take, show s + A.length - s = A.length from by omega, hd,
      List.take_left]
  · have hdrop : chunk.drop s = [] := List.drop_eq_nil_iff_le.mpr (by omega)
    rw [hdrop] at hd
    obtain ⟨hA, hB⟩ := List.append_eq_nil.mp hd.symm
    subst hA
    have h1 : min (s + ([] : List ℕ).length) chunk.length = chunk.length := by
      simp only [List.length_nil]
      omega
    have h2 : min s chunk.length = chunk.length := by omega
    rw [h1, h2]
    simp

lemma drop_lt_of_cons_like {chunk : List ℕ} {offset : ℕ} {X : List ℕ}
    (hd : chunk.drop offset = X) (hne : X ≠ []) : offset < chunk.length := by
  by_contra hcon
  rw [List.drop_eq_nil_iff_le.mpr (by omega)] at hd
  exact hne hd.symm

lemma workerLoopAux_step (fuel : ℕ) (chunk : List ℕ) (offset : ℕ) (st : SMState)
    (msgs : List ℕ) {label val rest : List ℕ}
    (hd : chunk.drop offset = label ++ semicolonB :: (val ++ newlineB :: rest))
    (hl59 : semicolonB ∉ label) (hl10 : newlineB ∉ label) (hv10 : newlineB ∉ val) :
    workerLoopAux (fuel + 1) chunk offset st msgs =
      workerLoopAux fuel chunk (offset + label.length + val.length + 2)
        (processRecord st label (fastParseFloat val))
        (if newlineB ∈ rest then msgs else msgs ++ [1]) := by
  have hofflt : offset < chunk.length :=
    drop_lt_of_cons_like hd (by rcases label with _ | _ <;> simp)
  have hd2 : chunk.drop offset = (label ++ semicolonB :: val) ++ newlineB :: rest := by
    rw [hd]; simp
  have hnl : findFrom newlineB chunk offset =
      some (offset + (label.length + (val.length + 1))) := by
    have := findFrom_some hd2 (by
      intro hmem
      rcases List.mem_append.mp hmem with h | h
      · exact hl10 h
      · rcases List.mem_cons.mp h with h | h
        · norm_num [newlineB, semicolonB] at h
        · exact hv10 h)
    simpa using this
  have hsc : findFrom semicolonB chunk offset = some (offset + label.length) :=
    findFrom_some hd hl59
  have hdroplv : chunk.drop (offset + label.length + 1) = val ++ newlineB :: rest := by
    have h1 : chunk.drop (offset + (label.length + 1)) =
        ((chunk.drop offset).drop (label.length + 1)) := by
      rw [List.drop_drop]
    have h2 : (label ++ semicolonB :: (val ++ newlineB :: rest)).drop (label.length + 1) =
        val ++ newlineB :: rest := by
      have : label ++ semicolonB :: (val ++ newlineB :: rest) =
          (label ++ [semicolonB]) ++ (val ++ newlineB :: rest) := by simp
      rw [this, show label.length + 1 = (label ++ [semicolonB]).length by simp,
        List.drop_left]
    have : offset + label.length + 1 = offset + (label.length + 1) := by omega
    rw [this, h1, hd, h2]
  have hdroprest : chunk.drop (offset + (label.length + (val.length + 1)) + 1) = rest := by
    have h1 : chunk.drop (offset + (label.length + (val.length + 1)) + 1) =
        ((chunk.drop offset).drop (label.length + (val.length + 1) + 1)) := by
      rw [List.drop_drop]
      congr 1 <;> omega
    have h2 : (label ++ semicolonB :: (val ++ newlineB :: rest)).drop
        (label.length + (val.length + 1) + 1) = rest := by
      have heq : label ++ semicolonB :: (val ++ newlineB :: rest) =
          (label ++ semicolonB :: val ++ [newlineB]) ++ rest := by simp
      rw [heq, show label.length + (val.length + 1) + 1 =
        (label ++ semicolonB :: val ++ [newlineB]).length from by
          simp
          try omega, List.drop_left]
    rw [h1, hd, h2]
  have hstation : jsSlice chunk (offset : ℤ) ((offset + label.length : ℕ) : ℤ) = label :=
    jsSlice_segment (by rw [hd])
  have htemp : jsSlice chunk ((offset + label.length : ℕ) + 1 : ℤ)
      ((offset + (label.length + (val.length + 1)) : ℕ) : ℤ) = val := by
    have hcast : ((offset + label.length : ℕ) + 1 : ℤ) =
        ((offset + label.length + 1 : ℕ) : ℤ) := by push_cast; ring
    have hcast2 : ((offset + (label.length + (val.length + 1)) : ℕ) : ℤ) =
        (((offset + label.length + 1) + val.length : ℕ) : ℤ) := by push_cast; ring
    rw [hcast, hcast2]
    exact jsSlice_segment (by rw [hdroplv])
  rw [workerLoopAux]
  rw [if_pos hofflt, hnl]
  simp only [hsc, hstation, htemp]
  have hiff := @findFrom_isSome_iff newlineB chunk
    (offset + (label.length + (val.length + 1)) + 1)
  rw [hdroprest] at hiff
  have hmsg : (findFrom newlineB chunk (offset + (label.length + (val.length + 1)) + 1)).isSome =
      decide (newlineB ∈ rest) := by
    by_cases hmem : newlineB ∈ rest
    · rw [hiff.mpr hmem]
      simp [hmem]
    · have hfalse : (findFrom newlineB chunk
          (offset + (label.length + (val.length + 1)) + 1)).isSome = false := by
        rw [← Bool.not_eq_true]
        intro hc
        exact hmem (hiff.mp hc)
      rw [hfalse]
      simp [hmem]
  rw [hmsg]
  have hoff : offset + (label.length + (val.length + 1)) + 1 =
      offset + label.length + val.length + 2 := by omega
  rw [hoff]
  by_cases hmem : newlineB ∈ rest
  · simp [hmem]
  · simp [hmem]

/-! ### Running the worker loop over a whole well-formed chunk -/

/-- Folding the per-record body over a stream of parsed values. -/
def foldRecs (st : SMState) (ps : List (List ℕ × JSVal)) : SMState :=
  ps.foldl (fun s p => processRecord s p.1 p.2) st

/-- The values the worker loop actually computes for a record list: each
value span fed through the double-precision `fastParseFloat`. -/
def parsedVals (rs : List (List ℕ × List ℕ)) : List (List ℕ × JSVal) :=
  rs.map (fun r => (r.1, fastParseFloat r.2))

/-- An exact record stream, injected into parse values. -/
def intRecs (ps : List (List ℕ × ℤ)) : List (List ℕ × JSVal) :=
  ps.map (fun p => (p.1, JSVal.int p.2))

lemma wfLabelB_elim {l : List ℕ} (h : wfLabelB l = true) :
    l ≠ [] ∧ l.length ≤ 100 ∧ ∀ b ∈ l, b ≠ semicolonB ∧ b ≠ newlineB ∧ b ≠ 0 ∧ b < 128 := by
  simp only [wfLabelB, Bool.and_eq_true, Bool.not_eq_true', List.all_eq_true,
    decide_eq_true_eq, bne_iff_ne, ne_eq] at h
  obtain ⟨⟨hne, hlen⟩, hall⟩ := h
  refine ⟨?_, hlen, ?_⟩
  · intro hcon
    rw [hcon] at hne
    simp at hne
  · intro b hb
    obtain ⟨⟨⟨h1, h2⟩, h3⟩, h4⟩ := hall b hb
    exact ⟨h1, h2, h3, h4⟩

lemma wfLabelB_no_semicolon {l : List ℕ} (h : wfLabelB l = true) : semicolonB ∉ l :=
  fun hc => ((wfLabelB_elim h).2.2 _ hc).1 rfl

lemma wfLabelB_no_newline {l : List ℕ} (h : wfLabelB l = true) : newlineB ∉ l :=
  fun hc => (((wfLabelB_elim h).2.2 _ hc).2.1) rfl

lemma wfValueB_mem {v : List ℕ} (h : wfValueB v = true) {b : ℕ} (hb : b ∈ v) :
    b = minusB ∨ b = dotB ∨ isDigitB b = true := by
  obtain ⟨ds, d, hne, hds, hd, hv | hv⟩ := wfValueB_elim h <;> subst hv
  · rcases List.mem_append.mp hb with h1 | h1
    · exact Or.inr (Or.inr (hds b h1))
    · rcases List.mem_cons.mp h1 with h2 | h2
      · exact Or.inr (Or.inl h2)
      · simp at h2
        subst h2
        exact Or.inr (Or.inr hd)
  · rcases List.mem_cons.mp hb with h1 | h1
    · exact Or.inl h1
    · rcases List.mem_append.mp h1 with h2 | h2
      · exact Or.inr (Or.inr (hds b h2))
      · rcases List.mem_cons.mp h2 with h3 | h3
        · exact Or.inr (Or.inl h3)
        · simp at h3
          subst h3
          exact Or.inr (Or.inr hd)

lemma wfValueB_no_newline {v : List ℕ} (h : wfValueB v = true) : newlineB ∉ v := by
  intro hc
  rcases wfValueB_mem h hc with h1 | h1 | h1
  · norm_num [newlineB, minusB] at h1
  · norm_num [newlineB, dotB] at h1
  · rw [isDigitB_iff] at h1
    norm_num [newlineB] at h1

lemma encodeInput_cons (r : List ℕ × List ℕ) (rs : List (List ℕ × List ℕ)) :
    encodeInput (r :: rs) = encodeRecord r ++ encodeInput rs := by
  simp [encodeInput]

lemma newline_mem_encodeInput {rs : List (List ℕ × List ℕ)} (h : rs ≠ []) :
    newlineB ∈ encodeInput rs := by
  rcases rs with _ | ⟨r, rs'⟩
  · exact absurd rfl h
  rw [encodeInput_cons]
  refine List.mem_append.mpr (Or.inl ?_)
  simp [encodeRecord]

lemma length_le_encodeInput (rs : List (List ℕ × List ℕ)) :
    rs.length ≤ (encodeInput rs).length := by
  induction rs with
  | nil => simp [encodeInput]
  | cons r rs' ih =>
      rw [encodeInput_cons]
      simp only [List.length_append, List.length_cons, encodeRecord]
      simp at *
      omega

lemma wfInput_cons {r : List ℕ × List ℕ} {rs : List (List ℕ × List ℕ)} :
    wfInput (r :: rs) = true ↔ wfRecordB r = true ∧ wfInput rs = true := by
  simp [wfInput]

lemma workerLoopAux_run :
    ∀ (rs : List (List ℕ × List ℕ)) (fuel offset : ℕ) (chunk : List ℕ)
      (st : SMState) (msgs : List ℕ),
      rs.length ≤ fuel → chunk.drop offset = encodeInput rs → wfInput rs = true →
      workerLoopAux fuel chunk offset st msgs =
        (foldRecs st (parsedVals rs), if rs.isEmpty then msgs else msgs ++ [1]) := by
  intro rs
  induction rs with
  | nil =>
      intro fuel offset chunk st msgs _ hd _
      have hle : chunk.length ≤ offset := by
        rw [List.drop_eq_nil_iff_le.symm]
        simpa [encodeInput] using hd
      have hguard : ¬(offset < chunk.length) := by omega
      cases fuel with
      | zero => simp [workerLoopAux, foldRecs, parsedVals]
      | succ f => simp [workerLoopAux, hguard, foldRecs, parsedVals]
  | cons r rs' ih =>
      intro fuel offset chunk st msgs hfuel hd hwf
      obtain ⟨hr, hwf'⟩ := wfInput_cons.mp hwf
      obtain ⟨hlab, hval⟩ : wfLabelB r.1 = true ∧ wfValueB r.2 = true := by
        simpa [wfRecordB] using hr
      cases fuel with
      | zero => simp at hfuel
      | succ f =>
          have hshape : chunk.drop offset =
              r.1 ++ semicolonB :: (r.2 ++ newlineB :: encodeInput rs') := by
            rw [hd, encodeInput_cons]
            simp [encodeRecord]
          rw [workerLoopAux_step f chunk offset st msgs hshape
            (wfLabelB_no_semicolon hlab) (wfLabelB_no_newline hlab)
            (wfValueB_no_newline hval)]
          have hdrop' : chunk.drop (offset + r.1.length + r.2.length + 2) =
              encodeInput rs' := by
            have h1 : chunk.drop (offset + (r.1.length + r.2.length + 2)) =
                (chunk.drop offset).drop (r.1.length + r.2.length + 2) := by
              rw [List.drop_drop]
            have h2 : (encodeRecord r ++ encodeInput rs').drop
                (r.1.length + r.2.length + 2) = encodeInput rs' := by
              rw [show r.1.length + r.2.length + 2 = (encodeRecord r).length from by
                simp [encodeRecord]; omega, List.drop_left]
            have harith : offset + r.1.length + r.2.length + 2 =
                offset + (r.1.length + r.2.length + 2) := by omega
            rw [harith, h1, hd, encodeInput_cons, h2]
          rw [ih f (offset + r.1.length + r.2.length + 2) chunk _ _
            (by simp at hfuel ⊢; omega) hdrop' hwf']
          have hfold : foldRecs (processRecord st r.1 (fastParseFloat r.2)) (parsedVals rs') =
              foldRecs st (parsedVals (r :: rs')) := by
            simp [foldRecs, parsedVals]
          rw [hfold]
          rcases rs' with _ | ⟨q, qs⟩
          · simp [encodeInput]
          · have hmem : newlineB ∈ encodeInput (q :: qs) :=
              newline_mem_encodeInput (by simp)
            simp [hmem]

lemma workerLoop_records (rs : List (List ℕ × List ℕ)) (hwf : wfInput rs = true)
    (st : SMState) :
    workerLoop (encodeInput rs) st =
      (foldRecs st (parsedVals rs), if rs.isEmpty then [] else [1]) := by
  unfold workerLoop
  exact workerLoopAux_run rs _ 0 _ st []
    (by have := length_le_encodeInput rs; omega) (by simp) hwf

lemma workerRun_records (rs : List (List ℕ × List ℕ)) (hwf : wfInput rs = true)
    (st : SMState) :
    workerRun (encodeInput rs) st = foldRecs st (parsedVals rs) := by
  unfold workerRun
  rw [workerLoop_records rs hwf st]

/-! ### Per-label statistics of a parsed record stream -/

/-- The values carried by records with label `l`, in stream order. -/
def valsOf (ps : List (List ℕ × ℤ)) (l : List ℕ) : List ℤ :=
  (ps.filter (fun p => decide (p.1 = l))).map Prod.snd

lemma valuesOf_eq_valsOf (rs : List (List ℕ × List ℕ)) (l : List ℕ) :
    valuesOf rs l = valsOf (parsedRecords rs) l := by
  unfold valuesOf valsOf parsedRecords
  induction rs with
  | nil => simp
  | cons r rs' ih =>
      by_cases h : r.1 = l <;> simp [h, ih]

lemma valsOf_append (ps qs : List (List ℕ × ℤ)) (l : List ℕ) :
    valsOf (ps ++ qs) l = valsOf ps l ++ valsOf qs l := by
  simp [valsOf, List.filter_append]

lemma valsOf_singleton_same (l : List ℕ) (v : ℤ) : valsOf [(l, v)] l = [v] := by
  simp [valsOf]

lemma valsOf_singleton_other {l l' : List ℕ} (v : ℤ) (hne : l ≠ l') :
    valsOf [(l, v)] l' = [] := by
  simp [valsOf, hne]

lemma valsOf_eq_nil_of_not_mem {ps : List (List ℕ × ℤ)} {l : List ℕ}
    (h : l ∉ ps.map Prod.fst) : valsOf ps l = [] := by
  unfold valsOf
  rw [List.map_eq_nil, List.filter_eq_nil]
  intro p hp
  simp only [decide_eq_true_eq]
  intro hc
  exact h (List.mem_map.mpr ⟨p, hp, hc⟩)

lemma valsOf_ne_nil_of_mem {ps : List (List ℕ × ℤ)} {l : List ℕ}
    (h : l ∈ ps.map Prod.fst) : valsOf ps l ≠ [] := by
  obtain ⟨p, hp, hfst⟩ := List.mem_map.mp h
  unfold valsOf
  intro hc
  rw [List.map_eq_nil, List.filter_eq_nil] at hc
  exact absurd (by simp [hfst]) (hc p hp)

lemma listMin_cons (v : ℤ) (vs : List ℤ) : listMin (v :: vs) = vs.foldl min v := rfl

lemma listMin_append_singleton {vs : List ℤ} (v : ℤ) (hne : vs ≠ []) :
    listMin (vs ++ [v]) = min (listMin vs) v := by
  rcases vs with _ | ⟨u, us⟩
  · exact absurd rfl hne
  · simp [listMin, List.foldl_append]

lemma listMax_append_singleton {vs : List ℤ} (v : ℤ) (hne : vs ≠ []) :
    listMax (vs ++ [v]) = max (listMax vs) v := by
  rcases vs with _ | ⟨u, us⟩
  · exact absurd rfl hne
  · simp [listMax, List.foldl_append]

lemma foldl_min_mem (vs : List ℤ) : ∀ v : ℤ, vs.foldl min v ∈ v :: vs := by
  induction vs with
  | nil => intro v; simp
  | cons u us ih =>
      intro v
      have h := ih (min v u)
      rcases List.mem_cons.mp h with h1 | h1
      · rcases min_choice v u with hc | hc <;> rw [List.foldl_cons, h1, hc] <;> simp
      · simp [List.foldl_cons]
        right; right
        exact h1

lemma foldl_max_mem (vs : List ℤ) : ∀ v : ℤ, vs.foldl max v ∈ v :: vs := by
  induction vs with
  | nil => intro v; simp
  | cons u us ih =>
      intro v
      have h := ih (max v u)
      rcases List.mem_cons.mp h with h1 | h1
      · rcases max_choice v u with hc | hc <;> rw [List.foldl_cons, h1, hc] <;> simp
      · simp [List.foldl_cons]
        right; right
        exact h1

lemma listMin_mem {vs : List ℤ} (hne : vs ≠ []) : listMin vs ∈ vs := by
  rcases vs with _ | ⟨u, us⟩
  · exact absurd rfl hne
  · exact foldl_min_mem us u

lemma listMax_mem {vs : List ℤ} (hne : vs ≠ []) : listMax vs ∈ vs := by
  rcases vs with _ | ⟨u, us⟩
  · exact absurd rfl hne
  · exact foldl_max_mem us u

lemma sumsOK_append_left {acc : ℤ} {xs ys : List ℤ}
    (h : sumsOK acc (xs ++ ys) = true) : sumsOK acc xs = true := by
  induction xs generalizing acc with
  | nil => simp [sumsOK]
  | cons x xs' ih =>
      simp only [List.cons_append, sumsOK, Bool.and_eq_true] at h ⊢
      exact ⟨h.1, ih h.2⟩

lemma sumsOK_total {acc : ℤ} {xs : List ℤ} (hne : xs ≠ [])
    (h : sumsOK acc xs = true) : inI32 (acc + xs.sum) = true := by
  induction xs generalizing acc with
  | nil => exact absurd rfl hne
  | cons x xs' ih =>
      simp only [sumsOK, Bool.and_eq_true] at h
      rcases xs' with _ | ⟨y, ys⟩
      · simpa using h.1
      · have := ih (by simp) h.2
        simpa [add_assoc] using this

/-! ### Pointwise effect of one record update -/

lemma div4_ne {i s o : ℕ} (h : i / 4 ≠ s) (ho : o < 4) : i ≠ s * 4 + o := by omega

lemma getNum_eq_agg (st : SMState) (l : List ℕ) (o : ℕ) :
    getNum st l o = st.agg (slotOf l * 4 + o) := rfl

lemma getNum_count (st : SMState) (l : List ℕ) :
    getNum st l COUNT_OFFSET = st.agg (slotOf l * 4 + 0) := rfl

lemma getNum_min (st : SMState) (l : List ℕ) :
    getNum st l MIN_OFFSET = st.agg (slotOf l * 4 + 1) := rfl

lemma getNum_max (st : SMState) (l : List ℕ) :
    getNum st l MAX_OFFSET = st.agg (slotOf l * 4 + 2) := rfl

lemma getNum_sum (st : SMState) (l : List ℕ) :
    getNum st l SUM_OFFSET = st.agg (slotOf l * 4 + 3) := rfl

lemma processRecord_fresh {st : SMState} {l : List ℕ} {v : ℤ}
    (hcount : getNum st l COUNT_OFFSET = 0) (hv : inI32 v = true) :
    ∀ i, (processRecord st l (JSVal.int v)).agg i =
      (if i = slotOf l * 4 + 3 then v
       else if i = slotOf l * 4 + 2 then v
       else if i = slotOf l * 4 + 1 then v
       else if i = slotOf l * 4 + 0 then 1
       else st.agg i) := by
  intro i
  have hv32 : toInt32 v = v := toInt32_of_inI32 hv
  have h132 : toInt32 1 = 1 := toInt32_eq_self (by norm_num) (by norm_num)
  simp only [processRecord]
  rw [if_pos hcount]
  simp only [setName, setNumD, jsToInt32_int, setNum, getIndex, BLOCK_SIZE, BLOCK_COUNT,
    COUNT_OFFSET, MIN_OFFSET, MAX_OFFSET, SUM_OFFSET, slotOf, hv32, h132, Nat.add_zero]

lemma processRecord_fresh_names {st : SMState} {l : List ℕ} {v : JSVal}
    (hcount : getNum st l COUNT_OFFSET = 0) :
    ∀ n, (processRecord st l v).names n =
      (if slotOf l * 100 ≤ n ∧ n < slotOf l * 100 + l.length
       then l.getD (n - slotOf l * 100) 0 % 256
       else st.names n) := by
  intro n
  simp only [processRecord]
  rw [if_pos hcount]
  simp only [setName, setNumD, setNum, getIndex, STATION_NAME_BYTE_SIZE, BLOCK_COUNT, slotOf]

lemma processRecord_seen {st : SMState} {l : List ℕ} {v : ℤ}
    (hcount : ¬(getNum st l COUNT_OFFSET = 0))
    (hsum : (v + getNum st l SUM_OFFSET).natAbs < 2 ^ 53) :
    (∀ i, (processRecord st l (JSVal.int v)).agg i =
      (if i = slotOf l * 4 + 3 then toInt32 (v + getNum st l SUM_OFFSET)
       else if i = slotOf l * 4 + 2 then toInt32 (max (getNum st l MAX_OFFSET) v)
       else if i = slotOf l * 4 + 1 then toInt32 (min (getNum st l MIN_OFFSET) v)
       else if i = slotOf l * 4 + 0 then toInt32 (getNum st l COUNT_OFFSET + 1)
       else st.agg i)) ∧
    (processRecord st l (JSVal.int v)).names = st.names := by
  constructor
  · intro i
    simp only [processRecord]
    rw [if_neg hcount]
    rw [getNum_setNum_same_key _ _ _ (show MIN_OFFSET ≠ COUNT_OFFSET by decide)]
    rw [getNum_setNumD_same_key _ _ _ (show MAX_OFFSET ≠ MIN_OFFSET by decide)]
    rw [getNum_setNum_same_key _ _ _ (show MAX_OFFSET ≠ COUNT_OFFSET by decide)]
    rw [getNum_setNumD_same_key _ _ _ (show SUM_OFFSET ≠ MAX_OFFSET by decide)]
    rw [getNum_setNumD_same_key _ _ _ (show SUM_OFFSET ≠ MIN_OFFSET by decide)]
    rw [getNum_setNum_same_key _ _ _ (show SUM_OFFSET ≠ COUNT_OFFSET by decide)]
    rw [dMinV_int, dMaxV_int, dAddV_int, dblRoundZ_small hsum]
    simp only [setNumD, jsToInt32_int, setNum, getNum, getIndex, BLOCK_SIZE, BLOCK_COUNT,
      COUNT_OFFSET, MIN_OFFSET, MAX_OFFSET, SUM_OFFSET, slotOf, Nat.add_zero,
      Nat.add_right_cancel_iff, Nat.add_left_cancel_iff]
    norm_num
    simp only [toInt32_idem]
  · simp only [processRecord]
    rw [if_neg hcount]
    rfl

/-! ### The table invariant over a collision-free, in-range record stream -/

/-- Correspondence between the shared table and the true statistics of the
records processed so far. -/
structure AggInv (ps : List (List ℕ × ℤ)) (st : SMState) : Prop where
  count_eq : ∀ l ∈ ps.map Prod.fst, st.agg (slotOf l * 4 + 0) = ((valsOf ps l).length : ℤ)
  min_eq : ∀ l ∈ ps.map Prod.fst, st.agg (slotOf l * 4 + 1) = listMin (valsOf ps l)
  max_eq : ∀ l ∈ ps.map Prod.fst, st.agg (slotOf l * 4 + 2) = listMax (valsOf ps l)
  sum_eq : ∀ l ∈ ps.map Prod.fst, st.agg (slotOf l * 4 + 3) = (valsOf ps l).sum
  names_in : ∀ l ∈ ps.map Prod.fst, ∀ j, j < l.length →
    st.names (slotOf l * 100 + j) = l.getD j 0
  names_pad : ∀ l ∈ ps.map Prod.fst, ∀ j, l.length ≤ j → j < 100 →
    st.names (slotOf l * 100 + j) = 0
  agg_unused : ∀ i, (∀ l ∈ ps.map Prod.fst, i / 4 ≠ slotOf l) → st.agg i = 0
  names_unused : ∀ n, (∀ l ∈ ps.map Prod.fst, n / 100 ≠ slotOf l) → st.names n = 0

/-- All labels of the stream are well-formed. -/
def PLabelOK (ps : List (List ℕ × ℤ)) : Prop :=
  ∀ l ∈ ps.map Prod.fst, wfLabelB l = true

/-- No two distinct labels of the stream share a hash slot. -/
def PColOK (ps : List (List ℕ × ℤ)) : Prop :=
  ∀ a ∈ ps.map Prod.fst, ∀ b ∈ ps.map Prod.fst, a ≠ b → slotOf a ≠ slotOf b

/-- Every value, running sum and count stays inside the signed 32-bit
range of the table cells. -/
def PRangeOK (ps : List (List ℕ × ℤ)) : Prop :=
  ∀ l ∈ ps.map Prod.fst,
    (valsOf ps l).all inI32 = true ∧ sumsOK 0 (valsOf ps l) = true ∧
      ((valsOf ps l).length : ℤ) < 2 ^ 31

lemma PLabelOK_append_left {ps qs : List (List ℕ × ℤ)} (h : PLabelOK (ps ++ qs)) :
    PLabelOK ps := by
  intro l hl
  exact h l (by simp at hl ⊢; exact Or.inl hl)

lemma PColOK_append_left {ps qs : List (List ℕ × ℤ)} (h : PColOK (ps ++ qs)) :
    PColOK ps := by
  intro a ha b hb hne
  exact h a (by simp at ha ⊢; exact Or.inl ha) b (by simp at hb ⊢; exact Or.inl hb) hne

lemma PRangeOK_append_left {ps qs : List (List ℕ × ℤ)} (h : PRangeOK (ps ++ qs)) :
    PRangeOK ps := by
  intro l hl
  have hl' : l ∈ (ps ++ qs).map Prod.fst := by simp at hl ⊢; exact Or.inl hl
  obtain ⟨hall, hsums, hlen⟩ := h l hl'
  rw [valsOf_append] at hall hsums hlen
  refine ⟨?_, sumsOK_append_left hsums, ?_⟩
  · rw [List.all_append] at hall
    exact (Bool.and_eq_true _ _ ▸ hall).1
  · simp at hlen ⊢
    omega

theorem foldRecs_inv : ∀ (ps : List (List ℕ × ℤ)),
    PLabelOK ps → PColOK ps → PRangeOK ps → AggInv ps (foldRecs SMState.init (intRecs ps)) := by
  intro ps
  induction ps using List.reverseRecOn with
  | nil =>
      intro _ _ _
      refine ⟨?_, ?_, ?_, ?_, ?_, ?_, ?_, ?_⟩ <;> simp [foldRecs, intRecs, SMState.init]
  | append_singleton ps p ih =>
      intro hlab hcol hrange
      obtain ⟨l, v⟩ := p
      have hinv := ih (PLabelOK_append_left hlab) (PColOK_append_left hcol)
        (PRangeOK_append_left hrange)
      have hst : foldRecs SMState.init (intRecs (ps ++ [(l, v)])) =
          processRecord (foldRecs SMState.init (intRecs ps)) l (JSVal.int v) := by
        simp [foldRecs, intRecs, List.foldl_append]
      set st := foldRecs SMState.init (intRecs ps) with hstdef
      have hmemL : l ∈ (ps ++ [(l, v)]).map Prod.fst := by simp
      have hmem_lift : ∀ l', l' ∈ ps.map Prod.fst → l' ∈ (ps ++ [(l, v)]).map Prod.fst := by
        intro l' h
        simp at h ⊢
        exact Or.inl h
      have hvalsL : valsOf (ps ++ [(l, v)]) l = valsOf ps l ++ [v] := by
        rw [valsOf_append, valsOf_singleton_same]
      have hvals_other : ∀ l', l' ≠ l → valsOf (ps ++ [(l, v)]) l' = valsOf ps l' := by
        intro l' hne
        rw [valsOf_append, valsOf_singleton_other v (fun hc => hne hc.symm)]
        simp
      obtain ⟨hallL, hsumsL, hlenL⟩ := hrange l hmemL
      rw [hvalsL] at hallL hsumsL hlenL
      have hvI32 : inI32 v = true := by
        rw [List.all_append] at hallL
        have := (Bool.and_eq_true _ _ ▸ hallL).2
        simpa using this
      have hwfL : wfLabelB l = true := hlab l hmemL
      obtain ⟨hlne, hllen, hlbytes⟩ := wfLabelB_elim hwfL
      have hlabels_new : (ps ++ [(l, v)]).map Prod.fst = ps.map Prod.fst ++ [l] := by simp
      by_cases hseen : l ∈ ps.map Prod.fst
      · -- the label already has records: the non-zero-count branch runs
        have hcntpos : 0 < (valsOf ps l).length :=
          List.length_pos.mpr (valsOf_ne_nil_of_mem hseen)
        have hcount_st : getNum st l COUNT_OFFSET = ((valsOf ps l).length : ℤ) :=
          hinv.count_eq l hseen
        have hcount_ne : ¬(getNum st l COUNT_OFFSET = 0) := by
          rw [hcount_st]
          intro hc
          have : (valsOf ps l).length = 0 := by exact_mod_cast hc
          omega
        rw [hst]
        have hslot_ne : ∀ l', l' ∈ ps.map Prod.fst → l' ≠ l → slotOf l' ≠ slotOf l := by
          intro l' hl' hne
          exact hcol l' (hmem_lift l' hl') l hmemL hne
        -- ranges
        have hminmem : listMin (valsOf ps l ++ [v]) ∈ valsOf ps l ++ [v] :=
          listMin_mem (by simp)
        have hmaxmem : listMax (valsOf ps l ++ [v]) ∈ valsOf ps l ++ [v] :=
          listMax_mem (by simp)
        have hallI : ∀ x ∈ valsOf ps l ++ [v], inI32 x = true := by
          intro x hx
          exact List.all_eq_true.mp hallL x hx
        have hminI : inI32 (min (getNum st l MIN_OFFSET) v) = true := by
          rw [getNum_min, hinv.min_eq l hseen,
            ← listMin_append_singleton v (valsOf_ne_nil_of_mem hseen)]
          exact hallI _ hminmem
        have hmaxI : inI32 (max (getNum st l MAX_OFFSET) v) = true := by
          rw [getNum_max, hinv.max_eq l hseen,
            ← listMax_append_singleton v (valsOf_ne_nil_of_mem hseen)]
          exact hallI _ hmaxmem
        have hsumI : inI32 (v + getNum st l SUM_OFFSET) = true := by
          rw [getNum_sum, hinv.sum_eq l hseen]
          have := sumsOK_total (by simp) hsumsL
          simpa [add_comm] using this
        have hcntI : inI32 (getNum st l COUNT_OFFSET + 1) = true := by
          have hlt := hlenL
          simp only [List.length_append, List.length_cons, List.length_nil] at hlt
          push_cast at hlt
          rw [hcount_st, inI32_iff]
          omega
        obtain ⟨hagg, hnames⟩ := @processRecord_seen _ _ v hcount_ne
          (by rw [inI32_iff] at hsumI; omega)
        refine ⟨?_, ?_, ?_, ?_, ?_, ?_, ?_, ?_⟩
        · -- count
          intro l' hl'
          rw [hlabels_new] at hl'
          rcases List.mem_append.mp hl' with h' | h'
          · by_cases heq : l' = l
            · subst heq
              rw [hagg, if_neg (by omega), if_neg (by omega), if_neg (by omega), if_pos rfl,
                toInt32_of_inI32 hcntI, hcount_st, hvalsL]
              simp only [List.length_append, List.length_cons, List.length_nil]
              push_cast
              ring
            · rw [hagg, if_neg (cell_ne_of_slot_ne (hslot_ne l' h' heq) (by norm_num) (by norm_num)),
                if_neg (cell_ne_of_slot_ne (hslot_ne l' h' heq) (by norm_num) (by norm_num)),
                if_neg (cell_ne_of_slot_ne (hslot_ne l' h' heq) (by norm_num) (by norm_num)),
                if_neg (cell_ne_of_slot_ne (hslot_ne l' h' heq) (by norm_num) (by norm_num)),
                hvals_other l' heq]
              exact hinv.count_eq l' h'
          · simp at h'
            subst h'
            rw [hagg, if_neg (by omega), if_neg (by omega), if_neg (by omega), if_pos rfl,
              toInt32_of_inI32 hcntI, hcount_st, hvalsL]
            simp only [List.length_append, List.length_cons, List.length_nil]
            push_cast
            ring
        · -- min
          intro l' hl'
          rw [hlabels_new] at hl'
          have hLcase : l' = l ∨ (l' ∈ ps.map Prod.fst ∧ l' ≠ l) := by
            rcases List.mem_append.mp hl' with h' | h'
            · by_cases heq : l' = l
              · exact Or.inl heq
              · exact Or.inr ⟨h', heq⟩
            · simp at h'
              exact Or.inl h'
          rcases hLcase with heq | ⟨h', heq⟩
          · subst heq
            rw [hagg, if_neg (by omega), if_neg (by omega), if_pos rfl,
              toInt32_of_inI32 hminI, getNum_min, hinv.min_eq l' hseen, hvalsL,
              listMin_append_singleton v (valsOf_ne_nil_of_mem hseen)]
          · rw [hagg, if_neg (cell_ne_of_slot_ne (hslot_ne l' h' heq) (by norm_num) (by norm_num)),
              if_neg (cell_ne_of_slot_ne (hslot_ne l' h' heq) (by norm_num) (by norm_num)),
              if_neg (cell_ne_of_slot_ne (hslot_ne l' h' heq) (by norm_num) (by norm_num)),
              if_neg (cell_ne_of_slot_ne (hslot_ne l' h' heq) (by norm_num) (by norm_num)),
              hvals_other l' heq]
            exact hinv.min_eq l' h'
        · -- max
          intro l' hl'
          rw [hlabels_new] at hl'
          have hLcase : l' = l ∨ (l' ∈ ps.map Prod.fst ∧ l' ≠ l) := by
            rcases List.mem_append.mp hl' with h' | h'
            · by_cases heq : l' = l
              · exact Or.inl heq
              · exact Or.inr ⟨h', heq⟩
            · simp at h'
              exact Or.inl h'
          rcases hLcase with heq | ⟨h', heq⟩
          · subst heq
            rw [hagg, if_neg (by omega), if_pos rfl,
              toInt32_of_inI32 hmaxI, getNum_max, hinv.max_eq l' hseen, hvalsL,
              listMax_append_singleton v (valsOf_ne_nil_of_mem hseen)]
          · rw [hagg, if_neg (cell_ne_of_slot_ne (hslot_ne l' h' heq) (by norm_num) (by norm_num)),
              if_neg (cell_ne_of_slot_ne (hslot_ne l' h' heq) (by norm_num) (by norm_num)),
              if_neg (cell_ne_of_slot_ne (hslot_ne l' h' heq) (by norm_num) (by norm_num)),
              if_neg (cell_ne_of_slot_ne (hslot_ne l' h' heq) (by norm_num) (by norm_num)),
              hvals_other l' heq]
            exact hinv.max_eq l' h'
        · -- sum
          intro l' hl'
          rw [hlabels_new] at hl'
          have hLcase : l' = l ∨ (l' ∈ ps.map Prod.fst ∧ l' ≠ l) := by
            rcases List.mem_append.mp hl' with h' | h'
            · by_cases heq : l' = l
              · exact Or.inl heq
              · exact Or.inr ⟨h', heq⟩
            · simp at h'
              exact Or.inl h'
          rcases hLcase with heq | ⟨h', heq⟩
          · subst heq
            rw [hagg, if_pos rfl, toInt32_of_inI32 hsumI, getNum_sum,
              hinv.sum_eq l' hseen, hvalsL, List.sum_append]
            simp [add_comm]
          · rw [hagg, if_neg (cell_ne_of_slot_ne (hslot_ne l' h' heq) (by norm_num) (by norm_num)),
              if_neg (cell_ne_of_slot_ne (hslot_ne l' h' heq) (by norm_num) (by norm_num)),
              if_neg (cell_ne_of_slot_ne (hslot_ne l' h' heq) (by norm_num) (by norm_num)),
              if_neg (cell_ne_of_slot_ne (hslot_ne l' h' heq) (by norm_num) (by norm_num)),
              hvals_other l' heq]
            exact hinv.sum_eq l' h'
        · -- names_in
          intro l' hl' j hj
          rw [hlabels_new] at hl'
          rw [hnames]
          rcases List.mem_append.mp hl' with h' | h'
          · exact hinv.names_in l' h' j hj
          · simp at h'
            subst h'
            exact hinv.names_in l' hseen j hj
        · -- names_pad
          intro l' hl' j hj1 hj2
          rw [hlabels_new] at hl'
          rw [hnames]
          rcases List.mem_append.mp hl' with h' | h'
          · exact hinv.names_pad l' h' j hj1 hj2
          · simp at h'
            subst h'
            exact hinv.names_pad l' hseen j hj1 hj2
        · -- agg_unused
          intro i hi
          have hiL : i / 4 ≠ slotOf l := hi l hmemL
          rw [hagg, if_neg (div4_ne hiL (by norm_num)), if_neg (div4_ne hiL (by norm_num)),
            if_neg (div4_ne hiL (by norm_num)), if_neg (div4_ne hiL (by norm_num))]
          exact hinv.agg_unused i (fun l' h' => hi l' (hmem_lift l' h'))
        · -- names_unused
          intro n hn
          rw [hnames]
          exact hinv.names_unused n (fun l' h' => hn l' (hmem_lift l' h'))
      · -- fresh label: the zero-count branch runs
        have hvals0 : valsOf ps l = [] := valsOf_eq_nil_of_not_mem hseen
        have hslot_ne : ∀ l', l' ∈ ps.map Prod.fst → slotOf l' ≠ slotOf l := by
          intro l' hl'
          refine hcol l' (hmem_lift l' hl') l hmemL ?_
          intro hc
          exact hseen (hc ▸ hl')
        have hcount0 : getNum st l COUNT_OFFSET = 0 := by
          rw [getNum_eq_agg]
          refine hinv.agg_unused _ ?_
          intro l' hl'
          have : (slotOf l * 4 + COUNT_OFFSET) / 4 = slotOf l := by
            simp only [COUNT_OFFSET]
            omega
          rw [this]
          exact fun hc => hslot_ne l' hl' hc.symm
        have hagg := processRecord_fresh hcount0 hvI32
        have hnames := @processRecord_fresh_names _ _ (JSVal.int v) hcount0
        rw [hst]
        have hvalsL' : valsOf (ps ++ [(l, v)]) l = [v] := by
          rw [hvalsL, hvals0]
          simp
        refine ⟨?_, ?_, ?_, ?_, ?_, ?_, ?_, ?_⟩
        · -- count
          intro l' hl'
          rw [hlabels_new] at hl'
          rcases List.mem_append.mp hl' with h' | h'
          · have heq : l' ≠ l := fun hc => hseen (hc ▸ h')
            rw [hagg, if_neg (cell_ne_of_slot_ne (fun hc => hslot_ne l' h' hc) (by norm_num) (by norm_num)),
              if_neg (cell_ne_of_slot_ne (fun hc => hslot_ne l' h' hc) (by norm_num) (by norm_num)),
              if_neg (cell_ne_of_slot_ne (fun hc => hslot_ne l' h' hc) (by norm_num) (by norm_num)),
              if_neg (cell_ne_of_slot_ne (fun hc => hslot_ne l' h' hc) (by norm_num) (by norm_num)),
              hvals_other l' heq]
            exact hinv.count_eq l' h'
          · simp at h'
            subst h'
            rw [hagg, if_neg (by omega), if_neg (by omega), if_neg (by omega), if_pos rfl,
              hvalsL']
            simp
        · -- min
          intro l' hl'
          rw [hlabels_new] at hl'
          rcases List.mem_append.mp hl' with h' | h'
          · have heq : l' ≠ l := fun hc => hseen (hc ▸ h')
            rw [hagg, if_neg (cell_ne_of_slot_ne (fun hc => hslot_ne l' h' hc) (by norm_num) (by norm_num)),
              if_neg (cell_ne_of_slot_ne (fun hc => hslot_ne l' h' hc) (by norm_num) (by norm_num)),
              if_neg (cell_ne_of_slot_ne (fun hc => hslot_ne l' h' hc) (by norm_num) (by norm_num)),
              if_neg (cell_ne_of_slot_ne (fun hc => hslot_ne l' h' hc) (by norm_num) (by norm_num)),
              hvals_other l' heq]
            exact hinv.min_eq l' h'
          · simp at h'
            subst h'
            rw [hagg, if_neg (by omega), if_neg (by omega), if_pos rfl, hvalsL']
            rfl
        · -- max
          intro l' hl'
          rw [hlabels_new] at hl'
          rcases List.mem_append.mp hl' with h' | h'
          · have heq : l' ≠ l := fun hc => hseen (hc ▸ h')
            rw [hagg, if_neg (cell_ne_of_slot_ne (fun hc => hslot_ne l' h' hc) (by norm_num) (by norm_num)),
              if_neg (cell_ne_of_slot_ne (fun hc => hslot_ne l' h' hc) (by norm_num) (by norm_num)),
              if_neg (cell_ne_of_slot_ne (fun hc => hslot_ne l' h' hc) (by norm_num) (by norm_num)),
              if_neg (cell_ne_of_slot_ne (fun hc => hslot_ne l' h' hc) (by norm_num) (by norm_num)),
              hvals_other l' heq]
            exact hinv.max_eq l' h'
          · simp at h'
            subst h'
            rw [hagg, if_neg (by omega), if_pos rfl, hvalsL']
            rfl
        · -- sum
          intro l' hl'
          rw [hlabels_new] at hl'
          rcases List.mem_append.mp hl' with h' | h'
          · have heq : l' ≠ l := fun hc => hseen (hc ▸ h')
            rw [hagg, if_neg (cell_ne_of_slot_ne (fun hc => hslot_ne l' h' hc) (by norm_num) (by norm_num)),
              if_neg (cell_ne_of_slot_ne (fun hc => hslot_ne l' h' hc) (by norm_num) (by norm_num)),
              if_neg (cell_ne_of_slot_ne (fun hc => hslot_ne l' h' hc) (by norm_num) (by norm_num)),
              if_neg (cell_ne_of_slot_ne (fun hc => hslot_ne l' h' hc) (by norm_num) (by norm_num)),
              hvals_other l' heq]
            exact hinv.sum_eq l' h'
          · simp at h'
            subst h'
            rw [hagg, if_pos rfl, hvalsL']
            simp
        · -- names_in
          intro l' hl' j hj
          rw [hlabels_new] at hl'
          rcases List.mem_append.mp hl' with h' | h'
          · have heq : l' ≠ l := fun hc => hseen (hc ▸ h')
            rw [hnames, if_neg (by
              intro hcon
              have h100 : slotOf l' * 100 + j < slotOf l' * 100 + 100 := by
                have := (wfLabelB_elim (hlab l' (hmem_lift l' h'))).2.1
                omega
              have := hslot_ne l' h'
              omega)]
            exact hinv.names_in l' h' j hj
          · simp at h'
            subst h'
            rw [hnames, if_pos (by omega)]
            have hgd : l'.getD (slotOf l' * 100 + j - slotOf l' * 100) 0 = l'.getD j 0 := by
              congr 1
              omega
            rw [hgd]
            have hmem : l'.getD j 0 ∈ l' := by
              rw [List.getD_eq_getElem?_getD, List.getElem?_eq_getElem hj]
              simp
            have hlt : l'.getD j 0 < 128 := (hlbytes _ hmem).2.2.2
            exact Nat.mod_eq_of_lt (by omega)
        · -- names_pad
          intro l' hl' j hj1 hj2
          rw [hlabels_new] at hl'
          rcases List.mem_append.mp hl' with h' | h'
          · have heq : l' ≠ l := fun hc => hseen (hc ▸ h')
            rw [hnames, if_neg (by
              intro hcon
              have := hslot_ne l' h'
              omega)]
            exact hinv.names_pad l' h' j hj1 hj2
          · simp at h'
            subst h'
            rw [hnames, if_neg (by omega)]
            refine hinv.names_unused _ ?_
            intro l'' hl''
            have : (slotOf l' * 100 + j) / 100 = slotOf l' := by omega
            rw [this]
            exact fun hc => hslot_ne l'' hl'' hc.symm
        · -- agg_unused
          intro i hi
          have hiL : i / 4 ≠ slotOf l := hi l hmemL
          rw [hagg, if_neg (div4_ne hiL (by norm_num)), if_neg (div4_ne hiL (by norm_num)),
            if_neg (div4_ne hiL (by norm_num)), if_neg (div4_ne hiL (by norm_num))]
          exact hinv.agg_unused i (fun l' h' => hi l' (hmem_lift l' h'))
        · -- names_unused
          intro n hn
          have hnL : n / 100 ≠ slotOf l := hn l hmemL
          rw [hnames, if_neg (by
            intro hcon
            have : n / 100 = slotOf l := by omega
            exact hnL this)]
          exact hinv.names_unused n (fun l' h' => hn l' (hmem_lift l' h'))

/-! ### The byte-lexicographic comparator -/

lemma lexLe_refl (a : List ℕ) : lexLe a a = true := by
  induction a with
  | nil => rfl
  | cons x xs ih => simp [lexLe, ih]

lemma lexLe_total (a b : List ℕ) : lexLe a b = true ∨ lexLe b a = true := by
  induction a generalizing b with
  | nil => left; rfl
  | cons x xs ih =>
      rcases b with _ | ⟨y, ys⟩
      · right; rfl
      · by_cases hxy : x < y
        · left; simp [lexLe, hxy]
        · by_cases hyx : y < x
          · right; simp [lexLe, hyx]
          · have hxy' : ¬(y < x) := hyx
            rcases ih ys with h | h
            · left; simp [lexLe, hxy, hxy', h]
            · right
              simp [lexLe, hxy, hxy', h]

lemma lexLe_antisymm {a b : List ℕ} (h1 : lexLe a b = true) (h2 : lexLe b a = true) :
    a = b := by
  induction a generalizing b with
  | nil =>
      rcases b with _ | ⟨y, ys⟩
      · rfl
      · simp [lexLe] at h2
  | cons x xs ih =>
      rcases b with _ | ⟨y, ys⟩
      · simp [lexLe] at h1
      · by_cases hxy : x < y
        · simp [lexLe, hxy, Nat.lt_asymm hxy] at h2
        · by_cases hyx : y < x
          · simp [lexLe, hxy, hyx] at h1
          · have hxe : x = y := by omega
            subst hxe
            simp [lexLe, hxy, hyx] at h1 h2
            rw [ih h1 h2]

lemma lexLe_trans {a b c : List ℕ} (h1 : lexLe a b = true) (h2 : lexLe b c = true) :
    lexLe a c = true := by
  induction a generalizing b c with
  | nil => rfl
  | cons x xs ih =>
      rcases b with _ | ⟨y, ys⟩
      · simp [lexLe] at h1
      · rcases c with _ | ⟨z, zs⟩
        · simp [lexLe] at h2
        · simp only [lexLe] at h1 h2 ⊢
          by_cases hxy : x < y <;> by_cases hyz : y < z
          · rw [if_pos (by omega)]
          · simp [hyz] at h2
            rcases h2 with ⟨h2a, h2b⟩
            rw [if_pos (by omega)]
          · simp [hxy] at h1
            rcases h1 with ⟨h1a, h1b⟩
            rw [if_pos (by omega)]
          · simp [hxy] at h1
            simp [hyz] at h2
            rcases h1 with ⟨h1a, h1b⟩
            rcases h2 with ⟨h2a, h2b⟩
            rw [if_neg (by omega), if_neg (by omega)]
            exact ih h1b h2b

instance : IsTotal (ℕ × List ℕ) stationR := ⟨fun a b => lexLe_total a.2 b.2⟩

instance : IsTrans (ℕ × List ℕ) stationR := ⟨fun _ _ _ => lexLe_trans⟩

instance : IsTotal (List ℕ) labelR := ⟨lexLe_total⟩

instance : IsTrans (List ℕ) labelR := ⟨fun _ _ _ => lexLe_trans⟩

/-- Two sorted lists of station entries with the same contents and
duplicate-free names are equal. -/
lemma sorted_perm_eq_of_nodup_names :
    ∀ {l1 l2 : List (ℕ × List ℕ)}, l1.Perm l2 → l1.Sorted stationR →
      l2.Sorted stationR → (l1.map Prod.snd).Nodup → l1 = l2 := by
  intro l1
  induction l1 with
  | nil =>
      intro l2 hp _ _ _
      exact List.Perm.nil_eq hp
  | cons a t1 ih =>
      intro l2 hp hs1 hs2 hnd
      rcases l2 with _ | ⟨b, t2⟩
      · exact absurd hp.symm (by simp)
      have hab : a = b := by
        by_cases heq : a = b
        · exact heq
        · have haIn : a ∈ b :: t2 := hp.mem_iff.mp (by simp)
          have hbIn : b ∈ a :: t1 := hp.mem_iff.mpr (by simp)
          have hba : stationR b a := by
            rcases List.mem_cons.mp haIn with h | h
            · exact absurd h.symm (fun hc => heq hc.symm)
            · exact (List.sorted_cons.mp hs2).1 a h
          have hab' : stationR a b := by
            rcases List.mem_cons.mp hbIn with h | h
            · exact absurd h.symm heq
            · exact (List.sorted_cons.mp hs1).1 b h
          have hsnd : a.2 = b.2 := lexLe_antisymm hab' hba
          have hbmem : b ∈ a :: t1 := hbIn
          have := List.inj_on_of_nodup_map hnd (by simp) hbmem hsnd
          exact this
      subst hab
      have hp' := hp.cons_inv
      have h1 := (List.sorted_cons.mp hs1).2
      have h2 := (List.sorted_cons.mp hs2).2
      have hnd' : (t1.map Prod.snd).Nodup := by
        simp at hnd
        exact hnd.2
      rw [ih hp' h1 h2 hnd']

/-! ### Reading back the table: `nameSlice` and `gatherStations` -/

lemma map_range_getD (A : List ℕ) :
    (List.range A.length).map (fun j => A.getD j 0) = A := by
  induction A using List.reverseRecOn with
  | nil => simp
  | append_singleton A' a ih =>
      rw [List.length_append, List.length_cons, List.length_nil, List.range_succ,
        List.map_append]
      congr 1
      · refine (List.map_congr_left ?_).trans ih
        intro j hj
        rw [List.mem_range] at hj
        exact List.getD_append _ _ _ _ (by omega)
      · simp

lemma replicate_getD (k j : ℕ) : (List.replicate k (0 : ℕ)).getD j 0 = 0 := by
  by_cases h : j < k
  · rw [List.getD_eq_getElem?_getD, List.getElem?_eq_getElem (by simpa using h)]
    simp
  · exact List.getD_eq_default _ _ (by simpa using Nat.le_of_not_lt h)

lemma nameSlice_of_inv {ps : List (List ℕ × ℤ)} {st : SMState} (hinv : AggInv ps st)
    {l : List ℕ} (hl : l ∈ ps.map Prod.fst) (hwf : wfLabelB l = true) :
    nameSlice st (slotOf l) = l := by
  obtain ⟨hne, hlen, hbytes⟩ := wfLabelB_elim hwf
  have hlen100 : (l ++ List.replicate (100 - l.length) 0).length = 100 := by
    simp
    omega
  have hA := map_range_getD (l ++ List.replicate (100 - l.length) 0)
  rw [hlen100] at hA
  show ((List.range 100).map (fun j => st.names (slotOf l * 100 + j))).filter
    (fun b => b != 0) = l
  have hcong : (List.range 100).map (fun j => st.names (slotOf l * 100 + j)) =
      (List.range 100).map (fun j => (l ++ List.replicate (100 - l.length) 0).getD j 0) := by
    refine List.map_congr_left ?_
    intro j hj
    rw [List.mem_range] at hj
    by_cases hjl : j < l.length
    · rw [hinv.names_in l hl j hjl, List.getD_append _ _ _ _ hjl]
    · rw [hinv.names_pad l hl j (by omega) hj,
        List.getD_append_right _ _ _ _ (by omega), replicate_getD]
  rw [hcong, hA, List.filter_append]
  have hfl : l.filter (fun b => b != 0) = l := by
    apply List.filter_eq_self.mpr
    intro b hb
    simpa using (hbytes b hb).2.2.1
  have hfr : (List.replicate (100 - l.length) (0 : ℕ)).filter (fun b => b != 0) = [] := by
    apply List.filter_eq_nil.mpr
    intro b hb
    rw [List.eq_of_mem_replicate hb]
    simp
  rw [hfl, hfr, List.append_nil]

lemma nameSlice_unused {ps : List (List ℕ × ℤ)} {st : SMState} (hinv : AggInv ps st)
    {s : ℕ} (hs : ∀ l ∈ ps.map Prod.fst, s ≠ slotOf l) :
    nameSlice st s = [] := by
  unfold nameSlice
  apply List.filter_eq_nil.mpr
  intro b hb
  obtain ⟨j, hj, hbj⟩ := List.mem_map.mp hb
  rw [List.mem_range] at hj
  have : st.names (s * STATION_NAME_BYTE_SIZE + j) = 0 := by
    refine hinv.names_unused _ ?_
    intro l hl
    have : (s * STATION_NAME_BYTE_SIZE + j) / 100 = s := by
      simp only [STATION_NAME_BYTE_SIZE] at *
      omega
    rw [this]
    exact hs l hl
  rw [← hbj, this]
  simp

lemma gather_mem_iff {ps : List (List ℕ × ℤ)} {st : SMState} (hinv : AggInv ps st)
    (hlab : PLabelOK ps) {e : ℕ × List ℕ} :
    e ∈ gatherStations st ↔
      ∃ l ∈ (ps.map Prod.fst).dedup, e = (slotOf l, l) := by
  constructor
  · intro he
    obtain ⟨i, hi, hfi⟩ := List.mem_filterMap.mp he
    by_cases hun : ∀ l ∈ ps.map Prod.fst, i ≠ slotOf l
    · have hfi' : (none : Option (ℕ × List ℕ)) = some e := by
        have hz : (if nameSlice st i = [] then none
            else some (i, nameSlice st i)) = some e := hfi
        rwa [if_pos (nameSlice_unused hinv hun)] at hz
      simp at hfi'
    · push_neg at hun
      obtain ⟨l, hl, hslot⟩ := hun
      subst hslot
      have hz : (if nameSlice st (slotOf l) = [] then none
          else some (slotOf l, nameSlice st (slotOf l))) = some e := hfi
      rw [nameSlice_of_inv hinv hl (hlab l hl),
        if_neg ((wfLabelB_elim (hlab l hl)).1)] at hz
      refine ⟨l, List.mem_dedup.mpr hl, ?_⟩
      exact (Option.some.injEq _ _ ▸ hz).symm
  · rintro ⟨l, hl, rfl⟩
    have hl' : l ∈ ps.map Prod.fst := List.mem_dedup.mp hl
    refine List.mem_filterMap.mpr ⟨slotOf l, List.mem_range.mpr (slotOf_lt l), ?_⟩
    show (if nameSlice st (slotOf l) = [] then none
        else some (slotOf l, nameSlice st (slotOf l))) = some (slotOf l, l)
    rw [nameSlice_of_inv hinv hl' (hlab l hl'),
      if_neg ((wfLabelB_elim (hlab l hl')).1)]

lemma gather_nodup (st : SMState) : (gatherStations st).Nodup := by
  refine List.Nodup.filterMap ?_ (List.nodup_range _)
  intro a a' b hb hb'
  have hz : (if nameSlice st a = [] then none else some (a, nameSlice st a)) = some b :=
    hb
  have hz' : (if nameSlice st a' = [] then none else some (a', nameSlice st a')) = some b :=
    hb'
  by_cases h1 : nameSlice st a = []
  · rw [if_pos h1] at hz
    simp at hz
  by_cases h2 : nameSlice st a' = []
  · rw [if_pos h2] at hz'
    simp at hz'
  rw [if_neg h1] at hz
  rw [if_neg h2] at hz'
  have e2 : (a, nameSlice st a) = (a', nameSlice st a') := by
    rw [← Option.some.injEq]
    rw [hz, hz']
  exact congrArg Prod.fst e2

lemma gather_perm {ps : List (List ℕ × ℤ)} {st : SMState} (hinv : AggInv ps st)
    (hlab : PLabelOK ps) :
    (gatherStations st).Perm
      (((ps.map Prod.fst).dedup).map (fun l => (slotOf l, l))) := by
  refine (List.perm_ext_iff_of_nodup (gather_nodup st) ?_).mpr ?_
  · refine List.Nodup.map ?_ (List.nodup_dedup _)
    intro a b hab
    exact congrArg Prod.snd hab
  · intro e
    rw [gather_mem_iff hinv hlab]
    constructor
    · rintro ⟨l, hl, rfl⟩
      exact List.mem_map.mpr ⟨l, hl, rfl⟩
    · intro he
      obtain ⟨l, hl, rfl⟩ := List.mem_map.mp he
      exact ⟨l, hl, rfl⟩

lemma sortedStations_eq {ps : List (List ℕ × ℤ)} {st : SMState} (hinv : AggInv ps st)
    (hlab : PLabelOK ps) :
    (gatherStations st).insertionSort stationR =
      (((ps.map Prod.fst).dedup).insertionSort labelR).map (fun l => (slotOf l, l)) := by
  refine sorted_perm_eq_of_nodup_names ?_ ?_ ?_ ?_
  · refine ((List.perm_insertionSort stationR _).trans (gather_perm hinv hlab)).trans ?_
    exact (List.Perm.map _ (List.perm_insertionSort labelR _)).symm
  · exact List.sorted_insertionSort stationR _
  · have hs := List.sorted_insertionSort labelR ((ps.map Prod.fst).dedup)
    exact List.Pairwise.map _ (fun a b hab => hab) hs
  · have hperm : ((gatherStations st).insertionSort stationR).map Prod.snd |>.Perm
        ((ps.map Prod.fst).dedup) := by
      have h1 := List.Perm.map Prod.snd
        ((List.perm_insertionSort stationR (gatherStations st)).trans (gather_perm hinv hlab))
      rw [List.map_map] at h1
      have hid : (Prod.snd ∘ fun l : List ℕ => (slotOf l, l)) = id := rfl
      rw [hid, List.map_id] at h1
      exact h1
    exact hperm.nodup_iff.mpr (List.nodup_dedup _)

lemma enumFrom_fold_sep (g : (ℕ × List ℕ) → String) :
    ∀ (t : List (ℕ × List ℕ)) (n : ℕ) (acc : String), 1 ≤ n →
      (List.enumFrom n t).foldl
        (fun acc ie => acc ++ (if 0 < ie.1 then ", " else "") ++ g ie.2) acc =
      t.foldl (fun acc x => acc ++ ", " ++ g x) acc := by
  intro t
  induction t with
  | nil => intro n acc _; rfl
  | cons a t' ih =>
      intro n acc hn
      rw [List.enumFrom_cons, List.foldl_cons, List.foldl_cons, if_pos (by omega)]
      exact ih (n + 1) _ (by omega)

lemma print_eq_joinSep (st : SMState) :
    printCompiledResults st = "\x7b" ++ joinSep (", ")
      (((gatherStations st).insertionSort stationR).map (renderEntry st)) ++ "\x7d\n" := by
  rcases hss : (gatherStations st).insertionSort stationR with _ | ⟨a, t⟩
  · simp only [printCompiledResults, hss]
    rfl
  · simp only [printCompiledResults, hss]
    rw [List.enum_cons, List.foldl_cons]
    have hacc : ("" ++ (if 0 < (0, a).1 then ", " else "") ++ renderEntry st (0, a).2) =
        renderEntry st a := by
      simp [String.empty_append]
    rw [hacc, enumFrom_fold_sep (renderEntry st) t 1 _ (by omega)]
    rw [List.map_cons]
    show "\x7b" ++ List.foldl (fun acc x => acc ++ ", " ++ renderEntry st x)
        (renderEntry st a) t ++ "\x7d\n" =
      "\x7b" ++ List.foldl (fun acc x => acc ++ ", " ++ x) (renderEntry st a)
        (List.map (renderEntry st) t) ++ "\x7d\n"
    rw [List.foldl_map]

lemma renderEntry_of_inv {ps : List (List ℕ × ℤ)} {st : SMState} (hinv : AggInv ps st)
    {l : List ℕ} (hl : l ∈ ps.map Prod.fst) :
    renderEntry st (slotOf l, l) =
      decodeAscii l ++ "=" ++
      round (dDivD (ofIntD (listMin (valsOf ps l))) (ofIntD 10)) ++ "/" ++
      round (dDivD (dDivD (ofIntD ((valsOf ps l).sum)) (ofIntD 10))
        (ofIntD ((valsOf ps l).length : ℤ))) ++ "/" ++
      round (dDivD (ofIntD (listMax (valsOf ps l))) (ofIntD 10)) := by
  show decodeAscii l ++ "=" ++
      round (dDivD (ofIntD (st.agg (slotOf l * 4 + 1))) (ofIntD 10)) ++ "/" ++
      round (dDivD (dDivD (ofIntD (st.agg (slotOf l * 4 + 3))) (ofIntD 10))
        (ofIntD (st.agg (slotOf l * 4 + 0)))) ++ "/" ++
      round (dDivD (ofIntD (st.agg (slotOf l * 4 + 2))) (ofIntD 10)) = _
  rw [hinv.min_eq l hl, hinv.max_eq l hl, hinv.sum_eq l hl, hinv.count_eq l hl]

/-! ### Hypothesis bridges from the byte-level input to the parsed stream -/

lemma parsed_map_fst (rs : List (List ℕ × List ℕ)) :
    (parsedRecords rs).map Prod.fst = rs.map Prod.fst := by
  simp [parsedRecords]

lemma PLabelOK_of_wfInput {rs : List (List ℕ × List ℕ)} (hwf : wfInput rs = true) :
    PLabelOK (parsedRecords rs) := by
  intro l hl
  rw [parsed_map_fst] at hl
  obtain ⟨r, hr, hfst⟩ := List.mem_map.mp hl
  have := List.all_eq_true.mp hwf r hr
  rw [← hfst]
  exact (Bool.and_eq_true _ _ ▸ this).1

lemma PColOK_of_collisionFree {rs : List (List ℕ × List ℕ)} (hcol : CollisionFree rs) :
    PColOK (parsedRecords rs) := by
  intro a ha b hb hne
  rw [parsed_map_fst] at ha hb
  have hsym : Symmetric (fun x y : List ℕ => slotOf x ≠ slotOf y) :=
    fun x y h => fun hc => h hc.symm
  exact List.Pairwise.forall hsym hcol
    (List.mem_dedup.mpr ha) (List.mem_dedup.mpr hb) hne

lemma PRangeOK_of_rangeOK {rs : List (List ℕ × List ℕ)} (hrange : rangeOK rs = true) :
    PRangeOK (parsedRecords rs) := by
  intro l hl
  rw [parsed_map_fst] at hl
  have hmem : l ∈ labelsOf rs := List.mem_dedup.mpr hl
  have h := List.all_eq_true.mp hrange l hmem
  simp only [Bool.and_eq_true, decide_eq_true_eq] at h
  obtain ⟨⟨hall, hsums⟩, hlen⟩ := h
  rw [valuesOf_eq_valsOf] at hall hsums
  refine ⟨hall, hsums, ?_⟩
  have : cntOf rs l = (valsOf (parsedRecords rs) l).length := by
    rw [cntOf, valuesOf_eq_valsOf]
  rw [← this]
  exact_mod_cast hlen

/-- With every value span short enough, the loop's double parse agrees
with the exact tenths on every record. -/
lemma parsedVals_eq_intRecs {rs : List (List ℕ × List ℕ)} (hwf : wfInput rs = true)
    (hshort : shortInput rs = true) :
    parsedVals rs = intRecs (parsedRecords rs) := by
  unfold parsedVals intRecs parsedRecords
  rw [List.map_map]
  refine List.map_congr_left ?_
  intro r hr
  have hwfr := List.all_eq_true.mp hwf r hr
  obtain ⟨hlab, hval⟩ : wfLabelB r.1 = true ∧ wfValueB r.2 = true := by
    simpa [wfRecordB] using hwfr
  have hs : shortValueB r.2 = true := by
    simpa using List.all_eq_true.mp hshort r hr
  simp only [Function.comp]
  rw [fastParseFloat_wfValue hval hs]

/-- The table cells after the record loop hold the true statistics. -/
lemma runRecords_stats {rs : List (List ℕ × List ℕ)} (hwf : wfInput rs = true)
    (hcol : CollisionFree rs) (hrange : rangeOK rs = true)
    (hshort : shortInput rs = true) :
    ∀ l ∈ labelsOf rs,
      getNum (runRecords rs) l COUNT_OFFSET = (cntOf rs l : ℤ) ∧
      getNum (runRecords rs) l MIN_OFFSET = mnOf rs l ∧
      getNum (runRecords rs) l MAX_OFFSET = mxOf rs l ∧
      getNum (runRecords rs) l SUM_OFFSET = smOf rs l := by
  intro l hl
  have hrun : runRecords rs = foldRecs SMState.init (intRecs (parsedRecords rs)) :=
    (workerRun_records rs hwf SMState.init).trans
      (by rw [parsedVals_eq_intRecs hwf hshort])
  have hinv := foldRecs_inv (parsedRecords rs) (PLabelOK_of_wfInput hwf)
    (PColOK_of_collisionFree hcol) (PRangeOK_of_rangeOK hrange)
  have hl' : l ∈ (parsedRecords rs).map Prod.fst := by
    rw [parsed_map_fst]
    exact List.mem_dedup.mp hl
  rw [hrun]
  refine ⟨?_, ?_, ?_, ?_⟩
  · rw [getNum_count, hinv.count_eq l hl', cntOf, valuesOf_eq_valsOf]
  · rw [getNum_min, hinv.min_eq l hl', mnOf, valuesOf_eq_valsOf]
  · rw [getNum_max, hinv.max_eq l hl', mxOf, valuesOf_eq_valsOf]
  · rw [getNum_sum, hinv.sum_eq l hl', smOf, valuesOf_eq_valsOf]

/-- The full output of `printCompiledResults` after the record loop: the
lexicographically sorted labels with their true statistics, rounded the
way `Math.round` rounds. -/
lemma printRun_eq {rs : List (List ℕ × List ℕ)} (hwf : wfInput rs = true)
    (hcol : CollisionFree rs) (hrange : rangeOK rs = true)
    (hshort : shortInput rs = true) :
    printCompiledResults (runRecords rs) = specRenderD rs := by
  have hrun : runRecords rs = foldRecs SMState.init (intRecs (parsedRecords rs)) :=
    (workerRun_records rs hwf SMState.init).trans
      (by rw [parsedVals_eq_intRecs hwf hshort])
  have hinv := foldRecs_inv (parsedRecords rs) (PLabelOK_of_wfInput hwf)
    (PColOK_of_collisionFree hcol) (PRangeOK_of_rangeOK hrange)
  rw [hrun, print_eq_joinSep, sortedStations_eq hinv (PLabelOK_of_wfInput hwf)]
  rw [List.map_map]
  have hlist : (((parsedRecords rs).map Prod.fst).dedup.insertionSort labelR).map
        ((renderEntry (foldRecs SMState.init (intRecs (parsedRecords rs)))) ∘
          (fun l => (slotOf l, l))) =
      (specSortedLabels rs).map (specEntryD rs) := by
    unfold specSortedLabels labelsOf
    rw [parsed_map_fst]
    refine List.map_congr_left ?_
    intro l hl
    have hl' : l ∈ (parsedRecords rs).map Prod.fst := by
      rw [parsed_map_fst]
      exact List.mem_dedup.mp ((List.perm_insertionSort labelR _).mem_iff.mp hl)
    show renderEntry (foldRecs SMState.init (intRecs (parsedRecords rs))) (slotOf l, l) = _
    rw [renderEntry_of_inv hinv hl']
    simp only [specEntryD, mnOf, mxOf, smOf, cntOf, valuesOf_eq_valsOf]
  rw [hlist]
  rfl

/-! ### The coordinator chunk splitter: invariants -/

lemma lastIdxOf_none_iff {b : ℕ} {l : List ℕ} : lastIdxOf b l = none ↔ b ∉ l := by
  constructor
  · intro h hmem
    have hsome : (l.reverse.findIdx? (· = b)).isSome = true := by
      rw [List.findIdx?_isSome, List.any_eq_true]
      exact ⟨b, List.mem_reverse.mpr hmem, by simp⟩
    unfold lastIdxOf at h
    rcases hopt : l.reverse.findIdx? (· = b) with _ | j
    · rw [hopt] at hsome
      simp at hsome
    · rw [hopt] at h
      simp at h
  · intro h
    unfold lastIdxOf
    have hnone : l.reverse.findIdx? (· = b) = none := by
      rw [List.findIdx?_eq_none_iff]
      intro x hx
      simp only [decide_eq_false_iff_not]
      intro hc
      exact h (List.mem_reverse.mp (hc ▸ hx))
    rw [hnone]
    rfl

lemma findIdx?_some_split {p : ℕ → Bool} :
    ∀ {l : List ℕ} {i j : ℕ}, List.findIdx? p l i = some j →
      ∃ C x D, l = C ++ x :: D ∧ (∀ c ∈ C, p c = false) ∧ p x = true ∧ j = i + C.length := by
  intro l
  induction l with
  | nil => intro i j h; simp [List.findIdx?] at h
  | cons a l' ih =>
      intro i j h
      rw [List.findIdx?_cons] at h
      by_cases hpa : p a = true
      · rw [if_pos hpa] at h
        simp only [Option.some.injEq] at h
        refine ⟨[], a, l', by simp, by simp, hpa, by simp [← h]⟩
      · rw [if_neg hpa] at h
        obtain ⟨C, x, D, hl, hC, hx, hj⟩ := ih h
        refine ⟨a :: C, x, D, by rw [hl, List.cons_append], ?_, hx, ?_⟩
        · intro c hc
          rcases List.mem_cons.mp hc with h1 | h1
          · rw [h1]
            exact Bool.not_eq_true _ ▸ hpa
          · exact hC c h1
        · simp
          omega

lemma lastIdxOf_some_split {b : ℕ} {l : List ℕ} {i : ℕ} (h : lastIdxOf b l = some i) :
    ∃ A B, l = A ++ b :: B ∧ b ∉ B ∧ i = A.length := by
  unfold lastIdxOf at h
  rcases hf : l.reverse.findIdx? (· = b) with _ | j
  · rw [hf] at h; simp at h
  · rw [hf] at h
    obtain ⟨C, x, D, hrev, hC, hx, hj⟩ := findIdx?_some_split hf
    simp only [decide_eq_true_eq] at hx
    have hl : l = D.reverse ++ b :: C.reverse := by
      have h2 := congrArg List.reverse hrev
      have h3 : l = D.reverse ++ x :: C.reverse := by simpa using h2
      rw [hx] at h3
      exact h3
    refine ⟨D.reverse, C.reverse, hl, ?_, ?_⟩
    · intro hmem
      have hfalse := hC b (List.mem_reverse.mp hmem)
      simp at hfalse
    · have hlen : l.length = C.length + D.length + 1 := by
        have := congrArg List.length hrev
        simp at this
        omega
      have hieq : i = l.length - 1 - j := by
        simp at h
        omega
      rw [List.length_reverse]
      omega

lemma coordData_none {cs : CoordState} {chunk : List ℕ}
    (h : lastIdxOf newlineB (cs.residual ++ chunk) = none) :
    coordData cs chunk = { cs with residual := cs.residual ++ chunk } := by
  simp only [coordData]
  rw [h]

lemma coordData_some {cs : CoordState} {chunk : List ℕ} {i : ℕ}
    (h : lastIdxOf newlineB (cs.residual ++ chunk) = some i) :
    coordData cs chunk =
      { cs with
        residual := (cs.residual ++ chunk).drop (i + 1)
        spans := cs.spans ++ [(cs.residual ++ chunk).take (i + 1)]
        sentChunk := cs.sentChunk + 1 } := by
  simp only [coordData]
  rw [h]

/-- Invariant of the coordinator state over the consumed byte stream. -/
structure CoordInv (consumed : List ℕ) (cs : CoordState) : Prop where
  spans_nl : ∀ sp ∈ cs.spans, sp ≠ [] ∧ sp.getLast? = some newlineB
  recon : cs.spans.join ++ cs.residual = consumed
  res_no_nl : newlineB ∉ cs.residual
  sent_eq : cs.sentChunk = cs.spans.length

lemma coordData_inv {consumed : List ℕ} {cs : CoordState} (h : CoordInv consumed cs)
    (chunk : List ℕ) : CoordInv (consumed ++ chunk) (coordData cs chunk) := by
  rcases hli : lastIdxOf newlineB (cs.residual ++ chunk) with _ | i
  · rw [coordData_none hli]
    refine ⟨h.spans_nl, ?_, ?_, h.sent_eq⟩
    · show cs.spans.join ++ (cs.residual ++ chunk) = consumed ++ chunk
      rw [← List.append_assoc, h.recon]
    · exact lastIdxOf_none_iff.mp hli
  · rw [coordData_some hli]
    obtain ⟨A, B, hsplit, hB, hi⟩ := lastIdxOf_some_split hli
    have htake : (cs.residual ++ chunk).take (i + 1) = A ++ [newlineB] := by
      rw [hsplit, hi, List.take_append]
      simp
    have hdrop : (cs.residual ++ chunk).drop (i + 1) = B := by
      rw [hsplit, hi]
      rw [show A ++ newlineB :: B = (A ++ [newlineB]) ++ B from by simp,
        show A.length + 1 = (A ++ [newlineB]).length from by simp, List.drop_left]
    refine ⟨?_, ?_, ?_, ?_⟩
    · intro sp hsp
      simp only [List.mem_append, List.mem_singleton] at hsp
      rcases hsp with h1 | h1
      · exact h.spans_nl sp h1
      · rw [h1, htake]
        exact ⟨by simp, List.getLast?_concat _⟩
    · show (cs.spans ++ [(cs.residual ++ chunk).take (i + 1)]).join ++
        (cs.residual ++ chunk).drop (i + 1) = consumed ++ chunk
      rw [htake, hdrop]
      have hjoin2 : (cs.spans ++ [A ++ [newlineB]]).join =
          cs.spans.join ++ (A ++ [newlineB]) := by simp
      rw [hjoin2, List.append_assoc]
      rw [show (A ++ [newlineB]) ++ B = A ++ newlineB :: B from by simp, ← hsplit,
        ← List.append_assoc, h.recon]
    · show newlineB ∉ (cs.residual ++ chunk).drop (i + 1)
      rw [hdrop]
      exact hB
    · show cs.sentChunk + 1 = (cs.spans ++ [(cs.residual ++ chunk).take (i + 1)]).length
      simp [h.sent_eq]

lemma coordRun_inv (bs : List (List ℕ)) : CoordInv bs.join (coordRun bs) := by
  suffices h : ∀ (bs : List (List ℕ)) (cs : CoordState) (consumed : List ℕ),
      CoordInv consumed cs → CoordInv (consumed ++ bs.join) (bs.foldl coordData cs) by
    have h0 : CoordInv [] CoordState.init := ⟨by simp [CoordState.init], rfl, by
      simp [CoordState.init], rfl⟩
    simpa using h bs CoordState.init [] h0
  intro bs
  induction bs with
  | nil => intro cs consumed h; simpa using h
  | cons c bs' ih =>
      intro cs consumed h
      have h1 := coordData_inv h c
      have h2 := ih (coordData cs c) (consumed ++ c) h1
      simpa [List.append_assoc] using h2

/-! ### Decomposing dispatched spans into whole-record groups -/

lemma encodeInput_eq_nil {rs : List (List ℕ × List ℕ)} (h : encodeInput rs = []) :
    rs = [] := by
  rcases rs with _ | ⟨r, rs'⟩
  · rfl
  · rw [encodeInput_cons] at h
    simp [encodeRecord] at h

lemma encodeRecord_no_nl_front {r : List ℕ × List ℕ} (hr : wfRecordB r = true) :
    newlineB ∉ (encodeRecord r).dropLast := by
  obtain ⟨hlab, hval⟩ : wfLabelB r.1 = true ∧ wfValueB r.2 = true := by
    simpa [wfRecordB] using hr
  have : (encodeRecord r).dropLast = r.1 ++ semicolonB :: r.2 := by
    unfold encodeRecord
    rw [show r.1 ++ [semicolonB] ++ r.2 ++ [newlineB] =
      (r.1 ++ semicolonB :: r.2) ++ [newlineB] from by simp, List.dropLast_concat]
  rw [this]
  intro hmem
  rcases List.mem_append.mp hmem with h1 | h1
  · exact wfLabelB_no_newline hlab h1
  · rcases List.mem_cons.mp h1 with h2 | h2
    · norm_num [newlineB, semicolonB] at h2
    · exact wfValueB_no_newline hval h2

lemma encode_prefix_split :
    ∀ (rs : List (List ℕ × List ℕ)) (P Q : List ℕ), wfInput rs = true →
      P ++ Q = encodeInput rs → P.getLast? = some newlineB →
      ∃ rs₁ rs₂, rs = rs₁ ++ rs₂ ∧ P = encodeInput rs₁ ∧ Q = encodeInput rs₂ := by
  intro rs
  induction rs with
  | nil =>
      intro P Q _ hPQ hP
      have hP0 : P = [] := by
        have : P ++ Q = [] := by simpa [encodeInput] using hPQ
        exact (List.append_eq_nil.mp this).1
      rw [hP0] at hP
      simp at hP
  | cons r rs' ih =>
      intro P Q hwf hPQ hP
      obtain ⟨hr, hwf'⟩ := wfInput_cons.mp hwf
      rw [encodeInput_cons] at hPQ
      rcases List.append_eq_append_iff.mp hPQ with ⟨a, hEa, hQa⟩ | ⟨c, hPc, hEc⟩
      · rcases a with _ | ⟨a0, a'⟩
        · refine ⟨[r], rs', by simp, ?_, ?_⟩
          · rw [encodeInput_cons]
            simp at hEa ⊢
            rw [hEa]
            simp [encodeInput]
          · simp at hQa
            exact hQa
        · exfalso
          have hmem : newlineB ∈ P := List.mem_of_mem_getLast? hP
          have hdl : (encodeRecord r).dropLast = P ++ (a0 :: a').dropLast := by
            rw [hEa]
            exact List.dropLast_append_of_ne_nil _ (by simp)
          have : newlineB ∈ (encodeRecord r).dropLast := by
            rw [hdl]
            exact List.mem_append.mpr (Or.inl hmem)
          exact encodeRecord_no_nl_front hr this
      · rcases c with _ | ⟨c0, c'⟩
        · refine ⟨[r], rs', by simp, ?_, ?_⟩
          · rw [hPc]
            simp [encodeInput]
          · simp at hEc
            rw [hEc]
        · have hclast : (c0 :: c').getLast? = some newlineB := by
            rw [hPc, List.getLast?_append] at hP
            rcases hopt : (c0 :: c').getLast? with _ | x
            · rw [List.getLast?_eq_none_iff] at hopt
              simp at hopt
            · rw [hopt] at hP
              simp at hP
              rw [hP]
          obtain ⟨rs₁, rs₂, hrs, hc, hQ⟩ := ih (c0 :: c') Q hwf' hEc.symm hclast
          refine ⟨r :: rs₁, rs₂, by rw [hrs, List.cons_append], ?_, hQ⟩
          rw [hPc, hc, encodeInput_cons]

lemma wfInput_append_iff {ps qs : List (List ℕ × List ℕ)} :
    wfInput (ps ++ qs) = true ↔ wfInput ps = true ∧ wfInput qs = true := by
  simp [wfInput]

lemma spans_decompose :
    ∀ (spans : List (List ℕ)) (rs : List (List ℕ × List ℕ)), wfInput rs = true →
      (∀ sp ∈ spans, sp.getLast? = some newlineB) → spans.join = encodeInput rs →
      ∃ parts : List (List (List ℕ × List ℕ)), parts.join = rs ∧
        spans = parts.map encodeInput ∧ ∀ part ∈ parts, wfInput part = true := by
  intro spans
  induction spans with
  | nil =>
      intro rs _ _ hjoin
      have : rs = [] := encodeInput_eq_nil (by simpa using hjoin.symm)
      subst this
      exact ⟨[], rfl, rfl, by simp⟩
  | cons sp rest ih =>
      intro rs hwf hnl hjoin
      have hsp : sp ++ rest.join = encodeInput rs := by simpa using hjoin
      obtain ⟨rs₁, rs₂, hrs, hP, hQ⟩ :=
        encode_prefix_split rs sp rest.join hwf hsp (hnl sp (by simp))
      subst hrs
      obtain ⟨hwf1, hwf2⟩ := wfInput_append_iff.mp hwf
      obtain ⟨parts, hpjoin, hpmap, hpwf⟩ := ih rs₂ hwf2
        (fun s hs => hnl s (by simp [hs])) hQ
      refine ⟨rs₁ :: parts, by simp [hpjoin], ?_, ?_⟩
      · rw [List.map_cons, ← hP, ← hpmap]
      · intro part hpart
        rcases List.mem_cons.mp hpart with h1 | h1
        · rw [h1]; exact hwf1
        · exact hpwf part h1

lemma foldl_workerRun_parts :
    ∀ (parts : List (List (List ℕ × List ℕ))) (st : SMState),
      (∀ part ∈ parts, wfInput part = true) →
      (parts.map encodeInput).foldl (fun st sp => workerRun sp st) st =
        foldRecs st (parsedVals parts.join) := by
  intro parts
  induction parts with
  | nil => intro st _; simp [foldRecs, parsedVals]
  | cons p rest ih =>
      intro st hwf
      rw [List.map_cons, List.foldl_cons,
        workerRun_records p (hwf p (by simp)) st,
        ih _ (fun q hq => hwf q (by simp [hq]))]
      show foldRecs (foldRecs st (parsedVals p)) (parsedVals rest.join) =
        foldRecs st (parsedVals (p :: rest).join)
      rw [show (p :: rest).join = p ++ rest.join from by simp]
      unfold foldRecs parsedVals
      rw [List.map_append, List.foldl_append]

lemma encodeRecord_getLast (r : List ℕ × List ℕ) :
    (encodeRecord r).getLast? = some newlineB := by
  unfold encodeRecord
  rw [show r.1 ++ [semicolonB] ++ r.2 ++ [newlineB] =
    (r.1 ++ semicolonB :: r.2) ++ [newlineB] from by simp]
  exact List.getLast?_concat _

lemma encodeInput_getLast {rs : List (List ℕ × List ℕ)} (h : rs ≠ []) :
    (encodeInput rs).getLast? = some newlineB := by
  induction rs with
  | nil => exact absurd rfl h
  | cons r rs' ih =>
      rw [encodeInput_cons, List.getLast?_append]
      rcases rs' with _ | ⟨q, qs⟩
      · rw [show encodeInput ([] : List (List ℕ × List ℕ)) = [] from rfl]
        simp [encodeRecord_getLast]
      · rw [ih (by simp)]
        rfl

/-- The whole pipeline: the table state obtained by running every
dispatched span through the worker loop equals the fold of the per-record
update over the input records. -/
lemma pipeline_run (rs : List (List ℕ × List ℕ)) (bs : List (List ℕ))
    (hwf : wfInput rs = true) (hjoin : bs.join = encodeInput rs) :
    (coordRun bs).spans.foldl (fun st sp => workerRun sp st) SMState.init =
      foldRecs SMState.init (parsedVals rs) := by
  have hinvC := coordRun_inv bs
  have hres : (coordRun bs).residual = [] := by
    rcases hcase : rs with _ | ⟨r, rs'⟩
    · have : (coordRun bs).spans.join ++ (coordRun bs).residual = [] := by
        rw [hinvC.recon, hjoin, hcase]
        rfl
      exact (List.append_eq_nil.mp this).2
    · by_contra hne
      have hlast : ((coordRun bs).spans.join ++ (coordRun bs).residual).getLast? =
          (coordRun bs).residual.getLast? := by
        rw [List.getLast?_append]
        rcases hopt : (coordRun bs).residual.getLast? with _ | x
        · rw [List.getLast?_eq_none_iff] at hopt
          exact absurd hopt hne
        · simp
      rw [hinvC.recon, hjoin, encodeInput_getLast (by rw [hcase]; simp)] at hlast
      have : newlineB ∈ (coordRun bs).residual :=
        List.mem_of_mem_getLast? hlast.symm
      exact hinvC.res_no_nl this
  have hspans : (coordRun bs).spans.join = encodeInput rs := by
    have := hinvC.recon
    rw [hres, List.append_nil] at this
    rw [this, hjoin]
  obtain ⟨parts, hpjoin, hpmap, hpwf⟩ := spans_decompose (coordRun bs).spans rs hwf
    (fun sp hsp => (hinvC.spans_nl sp hsp).2) hspans
  rw [hpmap, foldl_workerRun_parts parts SMState.init hpwf, hpjoin]

/-! ### The completion protocol

Messages between the main thread and the workers, and one representative
sequential interleaving: all `data` events, then the stream `end` event,
then the delivery of the worker acknowledgements. -/

/-- A message posted by the main thread to a worker: a chunk of work or
the `WORKER_DONE_MESSAGE` sentinel (the numeric value `1`). -/
inductive MainMsg
  | chunk (data : List ℕ)
  | done
deriving DecidableEq

def MainMsg.isChunk : MainMsg → Bool
  | MainMsg.chunk _ => true
  | MainMsg.done => false

/-- Messages the `data` handler posts: the dispatched span, if any
(scheduler-worker.js line 97). -/
def coordDataMsgs (cs : CoordState) (chunk0 : List ℕ) : List MainMsg :=
  match lastIdxOf newlineB (cs.residual ++ chunk0) with
  | some i => [MainMsg.chunk ((cs.residual ++ chunk0).take (i + 1))]
  | none => []

/-- Messages the `end` handler posts: none — lines 73-76 only close the
stream and set `allSent`. -/
def coordEndMsgs : CoordState → List MainMsg := fun _ => []

/-- All messages the main thread posts over a run. -/
def mainMsgs (bs : List (List ℕ)) : List MainMsg :=
  (bs.foldl (fun p c => (coordData p.1 c, p.2 ++ coordDataMsgs p.1 c))
    (CoordState.init, [])).2 ++ coordEndMsgs (coordRun bs)

/-- The worker message handler (scheduler-worker.js lines 108-175): a
sentinel is answered with `WORKER_DONE_MESSAGE` immediately; a chunk is
processed by the record loop, whose `cb` posts `WORKER_DONE_MESSAGE`
after the last record. -/
def workerOnMsg (m : MainMsg) (st : SMState) : SMState × List ℕ :=
  match m with
  | MainMsg.done => (st, [1])
  | MainMsg.chunk c => workerLoop c st

/-- The main-thread worker listener (lines 48-58): count one received
message, and finish when `allSent` holds and the counts agree. -/
def mainRecv (sent : ℕ) (allSent : Bool) (p : ℕ × Bool) : ℕ × Bool :=
  (p.1 + 1, p.2 || (allSent && decide (p.1 + 1 = sent)))

/-- One full sequential run: dispatch and process all spans, fire the
`end` event, then deliver every worker acknowledgement.  Returns the
table, the final `receivedChunk` and whether `printCompiledResults` was
reached. -/
def runSystem (bs : List (List ℕ)) : SMState × ℕ × Bool :=
  let cs := coordEnd (coordRun bs)
  let wr := cs.spans.foldl (fun (p : SMState × List ℕ) sp =>
      let r := workerLoop sp p.1
      (r.1, p.2 ++ r.2)) (SMState.init, [])
  let fin := wr.2.foldl (fun p _ => mainRecv cs.sentChunk cs.allSent p) (0, false)
  (wr.1, fin.1, fin.2)

lemma mainMsgs_eq_spans (bs : List (List ℕ)) :
    mainMsgs bs = (coordRun bs).spans.map MainMsg.chunk := by
  suffices h : ∀ (bs : List (List ℕ)) (cs : CoordState) (acc : List MainMsg),
      acc = cs.spans.map MainMsg.chunk →
      (bs.foldl (fun p c => (coordData p.1 c, p.2 ++ coordDataMsgs p.1 c)) (cs, acc)).1 =
        bs.foldl coordData cs ∧
      (bs.foldl (fun p c => (coordData p.1 c, p.2 ++ coordDataMsgs p.1 c)) (cs, acc)).2 =
        (bs.foldl coordData cs).spans.map MainMsg.chunk by
    have h0 := h bs CoordState.init [] (by simp [CoordState.init])
    unfold mainMsgs coordEndMsgs
    rw [List.append_nil]
    exact h0.2
  intro bs
  induction bs with
  | nil =>
      intro cs acc hacc
      exact ⟨rfl, hacc⟩
  | cons c bs' ih =>
      intro cs acc hacc
      rw [List.foldl_cons, List.foldl_cons]
      refine ih (coordData cs c) _ ?_
      unfold coordDataMsgs
      rcases hli : lastIdxOf newlineB (cs.residual ++ c) with _ | i
      · rw [coordData_none hli, hacc]
        simp
      · rw [coordData_some hli, hacc]
        simp

lemma mainMsgs_no_done (bs : List (List ℕ)) :
    (mainMsgs bs).all MainMsg.isChunk = true := by
  rw [mainMsgs_eq_spans, List.all_eq_true]
  intro m hm
  obtain ⟨sp, _, rfl⟩ := List.mem_map.mp hm
  rfl

lemma recvFold_fst (sent : ℕ) (aS : Bool) :
    ∀ (ms : List ℕ) (p : ℕ × Bool),
      (ms.foldl (fun p _ => mainRecv sent aS p) p).1 = p.1 + ms.length := by
  intro ms
  induction ms with
  | nil => intro p; simp
  | cons m ms' ih =>
      intro p
      rw [List.foldl_cons, ih]
      simp [mainRecv]
      omega

lemma recvFold_true (sent : ℕ) :
    ∀ (ms : List ℕ) (p : ℕ × Bool),
      (p.2 = true ∨ (p.1 < sent ∧ sent ≤ p.1 + ms.length)) →
      (ms.foldl (fun p _ => mainRecv sent true p) p).2 = true := by
  intro ms
  induction ms with
  | nil =>
      intro p hp
      rcases hp with h | h
      · exact h
      · simp at h
        omega
  | cons m ms' ih =>
      intro p hp
      rw [List.foldl_cons]
      rcases hp with h | h
      · exact ih _ (Or.inl (by simp [mainRecv, h]))
      · by_cases hhit : p.1 + 1 = sent
        · exact ih _ (Or.inl (by simp [mainRecv, hhit]))
        · refine ih _ (Or.inr ?_)
          simp only [mainRecv]
          simp at h ⊢
          omega

lemma spanFold_msgs :
    ∀ (parts : List (List (List ℕ × List ℕ))) (st : SMState) (acc : List ℕ),
      (∀ part ∈ parts, wfInput part = true ∧ part ≠ []) →
      ((parts.map encodeInput).foldl (fun (p : SMState × List ℕ) sp =>
          let r := workerLoop sp p.1
          (r.1, p.2 ++ r.2)) (st, acc)).2 = acc ++ List.replicate parts.length 1 := by
  intro parts
  induction parts with
  | nil => intro st acc _; simp
  | cons part rest ih =>
      intro st acc hwf
      rw [List.map_cons, List.foldl_cons]
      have h1 := workerLoop_records part (hwf part (by simp)).1 st
      have hne : ¬part.isEmpty = true := by
        rcases hpart : part with _ | _
        · exact absurd hpart (hwf part (by simp)).2
        · simp [hpart]
      simp only [h1, if_neg hne]
      rw [ih _ _ (fun q hq => hwf q (by simp [hq]))]
      simp [List.replicate_succ]

/-! ### Additional helper lemmas for the claim theorems -/

lemma workerLoopAux_stop (fuel : ℕ) (chunk : List ℕ) (offset : ℕ) (st : SMState)
    (msgs : List ℕ) (h : ¬ offset < chunk.length) :
    workerLoopAux fuel chunk offset st msgs = (st, msgs) := by
  cases fuel with
  | zero => rfl
  | succ n => simp [workerLoopAux, h]

lemma coordRun_residual_nil {rs : List (List ℕ × List ℕ)} {bs : List (List ℕ)}
    (hjoin : bs.join = encodeInput rs) : (coordRun bs).residual = [] := by
  have hinvC := coordRun_inv bs
  rcases hcase : rs with _ | ⟨r, rs'⟩
  · have : (coordRun bs).spans.join ++ (coordRun bs).residual = [] := by
      rw [hinvC.recon, hjoin, hcase]
      rfl
    exact (List.append_eq_nil.mp this).2
  · by_contra hne
    have hlast : ((coordRun bs).spans.join ++ (coordRun bs).residual).getLast? =
        (coordRun bs).residual.getLast? := by
      rw [List.getLast?_append]
      rcases hopt : (coordRun bs).residual.getLast? with _ | x
      · rw [List.getLast?_eq_none_iff] at hopt
        exact absurd hopt hne
      · simp
    rw [hinvC.recon, hjoin, encodeInput_getLast (by rw [hcase]; simp)] at hlast
    have : newlineB ∈ (coordRun bs).residual :=
      List.mem_of_mem_getLast? hlast.symm
    exact hinvC.res_no_nl this

lemma coordRun_spans_join {rs : List (List ℕ × List ℕ)} {bs : List (List ℕ)}
    (hjoin : bs.join = encodeInput rs) :
    (coordRun bs).spans.join = encodeInput rs := by
  have h := (coordRun_inv bs).recon
  rw [coordRun_residual_nil hjoin, List.append_nil] at h
  rw [h, hjoin]

/-- Folding one numeric store whose value is a function of one read of the
same slot: states that agree on the aggregation array and keys that hash
to the same slot produce the same aggregation array. -/
lemma setNumRead_congr {k k' : List ℕ} (hs : slotOf k = slotOf k') (f : ℤ → ℤ)
    (o r : ℕ) : ∀ {st st' : SMState}, st.agg = st'.agg →
      (setNum st k (f (getNum st k r)) o).agg =
        (setNum st' k' (f (getNum st' k' r)) o).agg := by
  intro st st' h
  funext i
  simp [setNum, getNum, getIndex_eq, hs, h]

lemma setNumReadD_congr {k k' : List ℕ} (hs : slotOf k = slotOf k') (f : ℤ → JSVal)
    (o r : ℕ) : ∀ {st st' : SMState}, st.agg = st'.agg →
      (setNumD st k (f (getNum st k r)) o).agg =
        (setNumD st' k' (f (getNum st' k' r)) o).agg := by
  intro st st' h
  funext i
  simp [setNumD, setNum, getNum, getIndex_eq, hs, h]

lemma getNum_slot_congr {k k' : List ℕ} (hs : slotOf k = slotOf k')
    (st : SMState) (o : ℕ) : getNum st k o = getNum st k' o := by
  simp [getNum, getIndex_eq, hs]

lemma specEntryAway_concrete {rs : List (List ℕ × List ℕ)} {l : List ℕ}
    {mn mx sm : ℤ} {cnt : ℕ}
    (hmn : mnOf rs l = mn) (hmx : mxOf rs l = mx) (hsm : smOf rs l = sm)
    (hcnt : cntOf rs l = cnt) {a b c : ℤ}
    (ha : (if 0 ≤ ((mn : ℚ) / 10) then ⌊10 * ((mn : ℚ) / 10) + 1 / 2⌋
           else -⌊-(10 * ((mn : ℚ) / 10)) + 1 / 2⌋) = a)
    (hb : (if 0 ≤ ((sm : ℚ) / 10 / (cnt : ℚ)) then ⌊10 * ((sm : ℚ) / 10 / (cnt : ℚ)) + 1 / 2⌋
           else -⌊-(10 * ((sm : ℚ) / 10 / (cnt : ℚ))) + 1 / 2⌋) = b)
    (hc : (if 0 ≤ ((mx : ℚ) / 10) then ⌊10 * ((mx : ℚ) / 10) + 1 / 2⌋
           else -⌊-(10 * ((mx : ℚ) / 10)) + 1 / 2⌋) = c) :
    specEntryAway rs l =
      decodeAscii l ++ "=" ++ fixed1 a ++ "/" ++ fixed1 b ++ "/" ++ fixed1 c := by
  simp only [specEntryAway, hmn, hmx, hsm, hcnt, roundAwayFmt]
  rw [ha, hb, hc]

/-! ### Concrete inputs used by the claim witnesses and counterexamples -/

/-- `"A;10.0\nB;-5.5\nA;20.0\n"` as records. -/
def recsC1 : List (List ℕ × List ℕ) :=
  [([65], [49, 48, 46, 48]), ([66], [45, 53, 46, 53]), ([65], [50, 48, 46, 48])]

/-- `"A;-1.5\nA;-1.6\n"` as records: mean `-1.55`, a negative rounding
tie. -/
def recsC1neg : List (List ℕ × List ℕ) :=
  [([65], [45, 49, 46, 53]), ([65], [45, 49, 46, 54])]

/-- Three records `"A;100000000.0"`: each value is `10^9` tenths, the
total `3 * 10^9` overflows a signed 32-bit cell. -/
def recsC3 : List (List ℕ × List ℕ) :=
  [([65], [49, 48, 48, 48, 48, 48, 48, 48, 48, 46, 48]),
   ([65], [49, 48, 48, 48, 48, 48, 48, 48, 48, 46, 48]),
   ([65], [49, 48, 48, 48, 48, 48, 48, 48, 48, 46, 48])]

/-- `"B;1.0\n"` as records. -/
def recsC3w : List (List ℕ × List ℕ) := [([66], [49, 46, 48])]

/-- `"A;10.0\n"` as records. -/
def recsC4 : List (List ℕ × List ℕ) := [([65], [49, 48, 46, 48])]

/-- The stream delivering `"A;1"` then `"0.0\n"`. -/
def bsC4 : List (List ℕ) := [[65, 59, 49], [48, 46, 48, 10]]

/-- `"A;10.0\nB;2.0\n"` as records. -/
def recsC5 : List (List ℕ × List ℕ) :=
  [([65], [49, 48, 46, 48]), ([66], [50, 46, 48])]

/-- The stream delivering `"A;1"` then `"0.0\nB;2.0\n"`: a buffer boundary
in the middle of the first record. -/
def bsC5a : List (List ℕ) := [[65, 59, 49], [48, 46, 48, 10, 66, 59, 50, 46, 48, 10]]

/-- The same bytes in one buffer. -/
def bsC5b : List (List ℕ) := [[65, 59, 49, 48, 46, 48, 10, 66, 59, 50, 46, 48, 10]]

/-- `"A;1.0\n"` as records. -/
def recsC6 : List (List ℕ × List ℕ) := [([65], [49, 46, 48])]

/-- The stream delivering `"A;1.0\n"` in one buffer. -/
def bsC6 : List (List ℕ) := [[65, 59, 49, 46, 48, 10]]

/-- `"C;0.5\n"` as records. -/
def recsC8 : List (List ℕ × List ℕ) := [([67], [48, 46, 53])]

/-- `"AC;1.0\nZT;2.0\n"` as records: the labels `"AC"` and `"ZT"` are
distinct but hash to the same slot. -/
def recsC9 : List (List ℕ × List ℕ) :=
  [([65, 67], [49, 46, 48]), ([90, 84], [50, 46, 48])]

/-- The well-formed 17-digit value span `"9999999999999999.9"`. -/
def valC2long : List ℕ :=
  [57, 57, 57, 57, 57, 57, 57, 57, 57, 57, 57, 57, 57, 57, 57, 57, 46, 57]

set_option maxRecDepth 10000

lemma renderAway_recsC1neg :
    specRenderAway recsC1neg = "\x7bA=-1.6/-1.6/-1.5\x7d\n" := by
  have hs : specSortedLabels recsC1neg = [[65]] := by decide
  have hA := specEntryAway_concrete
    (show mnOf recsC1neg [65] = -16 by decide) (show mxOf recsC1neg [65] = -15 by decide)
    (show smOf recsC1neg [65] = -31 by decide) (show cntOf recsC1neg [65] = 2 by decide)
    (show (if 0 ≤ (((-16 : ℤ) : ℚ) / 10) then ⌊10 * (((-16 : ℤ) : ℚ) / 10) + 1 / 2⌋
           else -⌊-(10 * (((-16 : ℤ) : ℚ) / 10)) + 1 / 2⌋) = -16 by
      rw [if_neg (by norm_num)]; push_cast; norm_num)
    (show (if 0 ≤ (((-31 : ℤ) : ℚ) / 10 / ((2 : ℕ) : ℚ))
           then ⌊10 * (((-31 : ℤ) : ℚ) / 10 / ((2 : ℕ) : ℚ)) + 1 / 2⌋
           else -⌊-(10 * (((-31 : ℤ) : ℚ) / 10 / ((2 : ℕ) : ℚ))) + 1 / 2⌋) = -16 by
      rw [if_neg (by norm_num)]; push_cast; norm_num)
    (show (if 0 ≤ (((-15 : ℤ) : ℚ) / 10) then ⌊10 * (((-15 : ℤ) : ℚ) / 10) + 1 / 2⌋
           else -⌊-(10 * (((-15 : ℤ) : ℚ) / 10)) + 1 / 2⌋) = -15 by
      rw [if_neg (by norm_num)]; push_cast; norm_num)
  rw [specRenderAway, hs, List.map_cons, List.map_nil, hA]
  rfl

/-! ### The claims -/

/-- C1: for every well-formed input of at-most-15-digit values whose
labels are collision-free and whose values, running sums and counts stay
inside the signed 32-bit range, the record loop followed by
`printCompiledResults` stores, per label, a count equal to the number of
records with that label and min, max and sum cells equal to the true
statistics, and prints exactly the binary64 formatting of those true
statistics: `min/10`, `(sum/10)/count` and `max/10` computed in doubles
and rounded by `Math.round(10 * x)/10` to one decimal (halves of the
double toward positive infinity, not away from zero). -/
theorem C1_end_to_end (rs : List (List ℕ × List ℕ))
    (hwf : wfInput rs = true) (hcol : CollisionFree rs) (hrange : rangeOK rs = true)
    (hshort : shortInput rs = true) :
    (∀ l ∈ labelsOf rs,
      getNum (runRecords rs) l COUNT_OFFSET = (cntOf rs l : ℤ) ∧
      getNum (runRecords rs) l MIN_OFFSET = mnOf rs l ∧
      getNum (runRecords rs) l MAX_OFFSET = mxOf rs l ∧
      getNum (runRecords rs) l SUM_OFFSET = smOf rs l) ∧
    printCompiledResults (runRecords rs) = specRenderD rs :=
  ⟨runRecords_stats hwf hcol hrange hshort, printRun_eq hwf hcol hrange hshort⟩

/-- Witness for C1 at the spec's end-to-end scenario
`"A;10.0\nB;-5.5\nA;20.0\n"`. -/
theorem C1_end_to_end_witness :
    wfInput recsC1 = true ∧ rangeOK recsC1 = true ∧ shortInput recsC1 = true ∧
    printCompiledResults (runRecords recsC1) =
      "\x7bA=10.0/15.0/20.0, B=-5.5/-5.5/-5.5\x7d\n" := by
  refine ⟨by decide, by decide, by decide, ?_⟩
  rw [(C1_end_to_end recsC1 (by decide) (by unfold CollisionFree; decide) (by decide)
    (by decide)).2]
  decide

/-- C1 counterexample: on `"A;-1.5\nA;-1.6\n"` the mean is `-1.55` and
the program prints it as `"-1.5"` (`Math.round` takes the half of the
double up), while rounding half away from zero would print `"-1.6"`. -/
theorem C1_counterexample :
    printCompiledResults (runRecords recsC1neg) = "\x7bA=-1.6/-1.5/-1.5\x7d\n" ∧
    specRenderAway recsC1neg = "\x7bA=-1.6/-1.6/-1.5\x7d\n" ∧
    printCompiledResults (runRecords recsC1neg) ≠ specRenderAway recsC1neg := by
  have h1 : printCompiledResults (runRecords recsC1neg) = "\x7bA=-1.6/-1.5/-1.5\x7d\n" := by
    rw [printRun_eq (by decide) (by unfold CollisionFree; decide) (by decide) (by decide)]
    decide
  refine ⟨h1, renderAway_recsC1neg, ?_⟩
  rw [h1, renderAway_recsC1neg]
  decide

/-- C2 (amended): `fastParseFloat` accumulates in binary64 doubles, so
it returns the exact number of tenths only on well-formed value spans
whose unsigned part holds at most 15 digit bytes (there every
intermediate stays below `2^53` and no double operation rounds); the
record `"Tokyo;23.4\n"` is processed as label `"Tokyo"` with the double
value `234` whatever the table state; `"-0.0"` and `"0.0"` both parse to
`0`. -/
theorem C2_fastParseFloat_exact :
    (∀ v : List ℕ, wfValueB v = true → shortValueB v = true →
      fastParseFloat v = JSVal.int (tenthsVal v)) ∧
    (∀ st : SMState,
      workerLoop [84, 111, 107, 121, 111, 59, 50, 51, 46, 52, 10] st =
        (processRecord st [84, 111, 107, 121, 111] (JSVal.int 234), [1])) ∧
    fastParseFloat [45, 48, 46, 48] = JSVal.int 0 ∧
    fastParseFloat [48, 46, 48] = JSVal.int 0 := by
  refine ⟨fun v hv hs => fastParseFloat_wfValue hv hs, ?_, by decide, by decide⟩
  intro st
  have he : encodeInput [([84, 111, 107, 121, 111], [50, 51, 46, 52])] =
      [84, 111, 107, 121, 111, 59, 50, 51, 46, 52, 10] := by decide
  have h := workerLoop_records [([84, 111, 107, 121, 111], [50, 51, 46, 52])] (by decide) st
  rw [he] at h
  rw [h]
  show (processRecord st [84, 111, 107, 121, 111] (fastParseFloat [50, 51, 46, 52]), _) = _
  rw [show fastParseFloat [50, 51, 46, 52] = JSVal.int 234 by decide]
  rfl

/-- Witness for C2 at the value span `"23.4"`. -/
theorem C2_fastParseFloat_exact_witness :
    wfValueB [50, 51, 46, 52] = true ∧ shortValueB [50, 51, 46, 52] = true ∧
    fastParseFloat [50, 51, 46, 52] = JSVal.int (tenthsVal [50, 51, 46, 52]) ∧
    fastParseFloat [50, 51, 46, 52] = JSVal.int 234 :=
  ⟨by decide, by decide,
   C2_fastParseFloat_exact.1 [50, 51, 46, 52] (by decide) (by decide), by decide⟩

/-- C2 counterexample: the well-formed 17-digit span
`"9999999999999999.9"` has exact tenths value `99999999999999999`, but
the binary64 accumulation rounds the running sum above `2^53` and
`fastParseFloat` returns `100000000000000000` (the double `1e17`): the
parse is not exact beyond 15 digits. -/
theorem C2_counterexample :
    wfValueB valC2long = true ∧
    tenthsVal valC2long = 99999999999999999 ∧
    fastParseFloat valC2long = JSVal.int 100000000000000000 ∧
    fastParseFloat valC2long ≠ JSVal.int (tenthsVal valC2long) :=
  ⟨by decide, by decide, by decide, by decide⟩

/-- C3 (amended): the per-label sum lives in a 32-bit `Int32Array` cell —
every numeric store goes through `ToInt32`, there is no wider accumulator
— so the stored sum equals the exact sum of the records' tenths only
under the hypothesis that every per-label running sum stays inside the
signed 32-bit range. -/
theorem C3_sum_cell_is_int32 (rs : List (List ℕ × List ℕ))
    (hwf : wfInput rs = true) (hcol : CollisionFree rs) (hrange : rangeOK rs = true)
    (hshort : shortInput rs = true) :
    (∀ l ∈ labelsOf rs, getNum (runRecords rs) l SUM_OFFSET = smOf rs l) ∧
    (∀ (st : SMState) (key : List ℕ) (v : ℤ) (o : ℕ),
      (setNum st key v o).agg (getIndex key BLOCK_SIZE + o) = toInt32 v) :=
  ⟨fun l hl => (runRecords_stats hwf hcol hrange hshort l hl).2.2.2,
   fun st key v o => setNum_agg_eq st key v o⟩

/-- Witness for C3 at `"B;1.0\n"` and a concrete store. -/
theorem C3_sum_cell_is_int32_witness :
    wfInput recsC3w = true ∧ rangeOK recsC3w = true ∧ shortInput recsC3w = true ∧
    [66] ∈ labelsOf recsC3w ∧
    getNum (runRecords recsC3w) [66] SUM_OFFSET = smOf recsC3w [66] ∧
    (setNum SMState.init [66] 5 3).agg (getIndex [66] BLOCK_SIZE + 3) = toInt32 5 := by
  have h := C3_sum_cell_is_int32 recsC3w (by decide) (by unfold CollisionFree; decide)
    (by decide) (by decide)
  exact ⟨by decide, by decide, by decide, by decide, h.1 [66] (by decide),
    h.2 SMState.init [66] 5 3⟩

/-- C3 counterexample: three records of `10^9` tenths have exact sum
`3 * 10^9`, which does not fit a signed 32-bit cell; the table stores the
wrapped value `-1294967296` instead. -/
theorem C3_counterexample :
    smOf recsC3 [65] = 3000000000 ∧
    inI32 3000000000 = false ∧
    getNum (runRecords recsC3) [65] SUM_OFFSET = -1294967296 ∧
    getNum (runRecords recsC3) [65] SUM_OFFSET ≠ smOf recsC3 [65] :=
  ⟨by decide, by decide, by decide, by decide⟩

/-- C4: every span the coordinator dispatches is non-empty and ends with
a newline byte; the concatenation of the dispatched spans followed by the
residual equals all bytes received; the residual holds no newline; the
`end` handler dispatches nothing and drops the residual silently; and for
a well-formed input every dispatched span is the encoding of a whole
sub-list of records. -/
theorem C4_spans_whole_records (bs : List (List ℕ)) :
    (∀ sp ∈ (coordRun bs).spans, sp ≠ [] ∧ sp.getLast? = some newlineB) ∧
    (coordRun bs).spans.join ++ (coordRun bs).residual = bs.join ∧
    newlineB ∉ (coordRun bs).residual ∧
    (coordEnd (coordRun bs)).spans = (coordRun bs).spans ∧
    coordEndMsgs (coordRun bs) = [] ∧
    (∀ rs : List (List ℕ × List ℕ), wfInput rs = true → bs.join = encodeInput rs →
      ∃ parts : List (List (List ℕ × List ℕ)),
        parts.join = rs ∧ (coordRun bs).spans = parts.map encodeInput ∧
        ∀ part ∈ parts, wfInput part = true) := by
  have hinv := coordRun_inv bs
  refine ⟨hinv.spans_nl, hinv.recon, hinv.res_no_nl, rfl, rfl, ?_⟩
  intro rs hwf hjoin
  exact spans_decompose _ rs hwf (fun sp hsp => (hinv.spans_nl sp hsp).2)
    (coordRun_spans_join hjoin)

/-- Witness for C4 at the stream delivering `"A;1"` then `"0.0\n"`. -/
theorem C4_spans_whole_records_witness :
    wfInput recsC4 = true ∧ bsC4.join = encodeInput recsC4 ∧
    (coordRun bsC4).spans.join ++ (coordRun bsC4).residual = bsC4.join ∧
    (∃ parts : List (List (List ℕ × List ℕ)),
      parts.join = recsC4 ∧ (coordRun bsC4).spans = parts.map encodeInput ∧
      ∀ part ∈ parts, wfInput part = true) :=
  ⟨by decide, by decide, (C4_spans_whole_records bsC4).2.1,
   (C4_spans_whole_records bsC4).2.2.2.2.2 recsC4 (by decide) (by decide)⟩

/-- C5: however the byte stream of a well-formed input is cut into
successive buffer deliveries — including a cut in the middle of a record
— processing all dispatched spans yields exactly the same aggregation
table. -/
theorem C5_rechunking_invariant (rs : List (List ℕ × List ℕ))
    (hwf : wfInput rs = true) (bs1 bs2 : List (List ℕ))
    (h1 : bs1.join = encodeInput rs) (h2 : bs2.join = encodeInput rs) :
    (coordRun bs1).spans.foldl (fun st sp => workerRun sp st) SMState.init =
      (coordRun bs2).spans.foldl (fun st sp => workerRun sp st) SMState.init := by
  rw [pipeline_run rs bs1 hwf h1, pipeline_run rs bs2 hwf h2]

/-- Witness for C5 at the spec's scenario: `"A;1"` + `"0.0\nB;2.0\n"`
versus the whole buffer at once. -/
theorem C5_rechunking_invariant_witness :
    wfInput recsC5 = true ∧ bsC5a.join = encodeInput recsC5 ∧
    bsC5b.join = encodeInput recsC5 ∧
    (coordRun bsC5a).spans.foldl (fun st sp => workerRun sp st) SMState.init =
      (coordRun bsC5b).spans.foldl (fun st sp => workerRun sp st) SMState.init :=
  ⟨by decide, by decide, by decide,
   C5_rechunking_invariant recsC5 (by decide) bsC5a bsC5b (by decide) (by decide)⟩

/-- C6 (amended): the coordinator never sends a `WORKER_DONE_MESSAGE`
sentinel — every message it posts is a chunk, and the `end` handler only
sets `allSent` without dispatching anything; instead each worker posts
`WORKER_DONE_MESSAGE` itself after the last record of every chunk it
processes, and in the sequential interleaving where the acknowledgements
arrive after the stream end the main thread counts exactly `sentChunk`
of them and reaches result reporting. -/
theorem C6_completion_protocol (rs : List (List ℕ × List ℕ)) (bs : List (List ℕ))
    (hwf : wfInput rs = true) (hne : rs ≠ []) (hjoin : bs.join = encodeInput rs) :
    ((mainMsgs bs).all MainMsg.isChunk = true) ∧
    ((coordEnd (coordRun bs)).spans = (coordRun bs).spans ∧
      (coordEnd (coordRun bs)).allSent = true) ∧
    (∀ (part : List (List ℕ × List ℕ)) (st : SMState),
      wfInput part = true → part ≠ [] →
      (workerOnMsg (MainMsg.chunk (encodeInput part)) st).2 = [1]) ∧
    (runSystem bs).2.1 = (coordRun bs).sentChunk ∧
    (runSystem bs).2.2 = true := by
  have hinv := coordRun_inv bs
  obtain ⟨parts, hpjoin, hpmap, hpwf⟩ :=
    spans_decompose (coordRun bs).spans rs hwf
      (fun sp hsp => (hinv.spans_nl sp hsp).2) (coordRun_spans_join hjoin)
  have hpne : ∀ part ∈ parts, part ≠ [] := by
    intro part hp hcon
    have hmem : encodeInput part ∈ (coordRun bs).spans := by
      rw [hpmap]
      exact List.mem_map_of_mem encodeInput hp
    have := (hinv.spans_nl _ hmem).1
    rw [hcon] at this
    exact this rfl
  have hmsgs : ((coordRun bs).spans.foldl (fun (p : SMState × List ℕ) sp =>
      let r := workerLoop sp p.1
      (r.1, p.2 ++ r.2)) (SMState.init, [])).2 = List.replicate parts.length 1 := by
    rw [hpmap]
    simpa using spanFold_msgs parts SMState.init []
      (fun part hp => ⟨hpwf part hp, hpne part hp⟩)
  have hlen : parts.length = (coordRun bs).sentChunk := by
    rw [hinv.sent_eq, hpmap, List.length_map]
  have hpos : 0 < parts.length := by
    rcases hp : parts with _ | _
    · exfalso
      rw [hp] at hpjoin
      exact hne (hpjoin ▸ rfl)
    · simp [hp]
  refine ⟨mainMsgs_no_done bs, ⟨rfl, rfl⟩, ?_, ?_, ?_⟩
  · intro part st hpwf1 hpne1
    show (workerLoop (encodeInput part) st).2 = [1]
    rw [workerLoop_records part hpwf1 st]
    have : part.isEmpty = false := by
      rcases part with _ | _
      · exact absurd rfl hpne1
      · rfl
    simp [this]
  · show ((((coordEnd (coordRun bs)).spans.foldl (fun (p : SMState × List ℕ) sp =>
        let r := workerLoop sp p.1
        (r.1, p.2 ++ r.2)) (SMState.init, [])).2.foldl
        (fun p _ => mainRecv (coordEnd (coordRun bs)).sentChunk
          (coordEnd (coordRun bs)).allSent p) (0, false)).1 : ℕ) = (coordRun bs).sentChunk
    rw [show (coordEnd (coordRun bs)).spans = (coordRun bs).spans from rfl,
      show (coordEnd (coordRun bs)).sentChunk = (coordRun bs).sentChunk from rfl,
      show (coordEnd (coordRun bs)).allSent = true from rfl, hmsgs,
      recvFold_fst _ _ _ _]
    simp [hlen]
  · show ((((coordEnd (coordRun bs)).spans.foldl (fun (p : SMState × List ℕ) sp =>
        let r := workerLoop sp p.1
        (r.1, p.2 ++ r.2)) (SMState.init, [])).2.foldl
        (fun p _ => mainRecv (coordEnd (coordRun bs)).sentChunk
          (coordEnd (coordRun bs)).allSent p) (0, false)).2 : Bool) = true
    rw [show (coordEnd (coordRun bs)).spans = (coordRun bs).spans from rfl,
      show (coordEnd (coordRun bs)).sentChunk = (coordRun bs).sentChunk from rfl,
      show (coordEnd (coordRun bs)).allSent = true from rfl, hmsgs]
    refine recvFold_true _ _ _ (Or.inr ?_)
    simp [← hlen]
    omega

/-- Witness for C6 at the single-buffer stream `"A;1.0\n"`. -/
theorem C6_completion_protocol_witness :
    wfInput recsC6 = true ∧ recsC6 ≠ [] ∧ bsC6.join = encodeInput recsC6 ∧
    (mainMsgs bsC6).all MainMsg.isChunk = true ∧
    (runSystem bsC6).2.2 = true := by
  have h := C6_completion_protocol recsC6 bsC6 (by decide) (by decide) (by decide)
  exact ⟨by decide, by decide, by decide, h.1, h.2.2.2.2⟩

/-- C6 counterexample: on the stream `"A;1.0\n"` the main thread posts
only chunk messages — `WORKER_DONE_MESSAGE` is never sent to a worker —
yet the worker, after processing the chunk, posts `WORKER_DONE_MESSAGE`
(`1`) without ever having received a sentinel. -/
theorem C6_counterexample :
    MainMsg.done ∉ mainMsgs [[65, 59, 49, 46, 48, 10]] ∧
    (workerOnMsg (MainMsg.chunk [65, 59, 49, 46, 48, 10]) SMState.init).2 = [1] :=
  ⟨by decide, by decide⟩

/-- C7 (amended): parsing is never a fatal error — `fastParseFloat`
performs no validation.  A record whose value span contains any bytes at
all (digits or not, as long as it holds no newline) is processed like any
other record: the value parsed by `fastParseFloat` is aggregated and the
loop finishes the chunk normally, posting its done message. -/
theorem C7_no_parse_validation (label v : List ℕ) (st : SMState)
    (hlab : wfLabelB label = true) (hv : newlineB ∉ v) :
    workerLoop (label ++ semicolonB :: v ++ [newlineB]) st =
      (processRecord st label (fastParseFloat v), [1]) := by
  unfold workerLoop
  have hd : (label ++ semicolonB :: v ++ [newlineB]).drop 0 =
      label ++ semicolonB :: (v ++ newlineB :: []) := by simp
  have hstep := workerLoopAux_step (label ++ semicolonB :: v ++ [newlineB]).length
    (label ++ semicolonB :: v ++ [newlineB]) 0 st [] hd
    (wfLabelB_no_semicolon hlab) (wfLabelB_no_newline hlab) hv
  have hstop : workerLoopAux (label ++ semicolonB :: v ++ [newlineB]).length
      (label ++ semicolonB :: v ++ [newlineB]) (0 + label.length + v.length + 2)
      (processRecord st label (fastParseFloat v)) [1] =
      (processRecord st label (fastParseFloat v), [1]) := by
    refine workerLoopAux_stop _ _ _ _ _ ?_
    simp only [List.length_append, List.length_cons, List.length_nil]
    omega
  rw [hstep]
  simpa using hstop

/-- Witness for C7 at the malformed record `"A;1a.0\n"`: the byte `'a'`
is no digit, yet the record is aggregated with value `590`. -/
theorem C7_no_parse_validation_witness :
    wfLabelB [65] = true ∧ newlineB ∉ [49, 97, 46, 48] ∧
    wfValueB [49, 97, 46, 48] = false ∧
    workerLoop ([65] ++ semicolonB :: [49, 97, 46, 48] ++ [newlineB]) SMState.init =
      (processRecord SMState.init [65] (fastParseFloat [49, 97, 46, 48]), [1]) :=
  ⟨by decide, by decide, by decide,
   C7_no_parse_validation [65] [49, 97, 46, 48] SMState.init (by decide) (by decide)⟩

/-- C7 counterexample: the value span `"1a.0"` is malformed, but instead
of aborting, the worker parses it to `590` tenths, aggregates it under
label `"A"` (count `1`, sum `590`) and completes the chunk normally. -/
theorem C7_counterexample :
    wfValueB [49, 97, 46, 48] = false ∧
    fastParseFloat [49, 97, 46, 48] = JSVal.int 590 ∧
    getNum (workerRun [65, 59, 49, 97, 46, 48, 10] SMState.init) [65] COUNT_OFFSET = 1 ∧
    getNum (workerRun [65, 59, 49, 97, 46, 48, 10] SMState.init) [65] SUM_OFFSET = 590 ∧
    (workerLoop [65, 59, 49, 97, 46, 48, 10] SMState.init).2 = [1] :=
  ⟨by decide, by decide, by decide, by decide, by decide⟩

/-- C8 (amended): `printCompiledResults` writes the single line
`\x7blabel1=min1/mean1/max1, label2=min2/mean2/max2, ...\x7d` with the
labels sorted lexicographically by byte value, entries separated by
`", "`, and each statistic formatted to exactly one fractional digit by
`Math.round(10 * num) / 10` on the binary64 chain — which matches
round-half-away-from-zero on the nonnegative examples (the mean
`31/10/2 = 1.55` prints `"1.6"`, the value `1` prints `"1.0"`) but
rounds negative halves of the double toward zero. -/
theorem C8_output_format (rs : List (List ℕ × List ℕ))
    (hwf : wfInput rs = true) (hcol : CollisionFree rs) (hrange : rangeOK rs = true)
    (hshort : shortInput rs = true) :
    printCompiledResults (runRecords rs) =
      "\x7b" ++ joinSep ", " ((specSortedLabels rs).map (specEntryD rs)) ++ "\x7d\n" ∧
    List.Sorted labelR (specSortedLabels rs) ∧
    round (dDivD (dDivD (ofIntD 31) (ofIntD 10)) (ofIntD 2)) = "1.6" ∧
    round (dDivD (ofIntD 10) (ofIntD 10)) = "1.0" := by
  refine ⟨printRun_eq hwf hcol hrange hshort, ?_, by decide, by decide⟩
  unfold specSortedLabels
  exact List.sorted_insertionSort labelR (labelsOf rs)

/-- Witness for C8 at `"C;0.5\n"`. -/
theorem C8_output_format_witness :
    wfInput recsC8 = true ∧ rangeOK recsC8 = true ∧ shortInput recsC8 = true ∧
    printCompiledResults (runRecords recsC8) =
      "\x7b" ++ joinSep ", " ((specSortedLabels recsC8).map (specEntryD recsC8)) ++ "\x7d\n" ∧
    round (dDivD (dDivD (ofIntD 31) (ofIntD 10)) (ofIntD 2)) = "1.6" := by
  have h := C8_output_format recsC8 (by decide) (by unfold CollisionFree; decide) (by decide)
    (by decide)
  exact ⟨by decide, by decide, by decide, h.1, h.2.2.1⟩

/-- C8 counterexample: the negative tie mean `-31/10/2 = -1.55` — the
code prints `"-1.5"` (`Math.round` takes the half of the double toward
positive infinity), while round-half-away-from-zero gives `"-1.6"`. -/
theorem C8_counterexample :
    round (dDivD (dDivD (ofIntD (-31)) (ofIntD 10)) (ofIntD 2)) = "-1.5" ∧
    roundAwayFmt ((-31 : ℚ) / 20) = "-1.6" ∧
    round (dDivD (dDivD (ofIntD (-31)) (ofIntD 10)) (ofIntD 2)) ≠
      roundAwayFmt ((-31 : ℚ) / 20) := by
  have h1 : round (dDivD (dDivD (ofIntD (-31)) (ofIntD 10)) (ofIntD 2)) = "-1.5" := by
    decide
  have h2 : roundAwayFmt ((-31 : ℚ) / 20) = "-1.6" := by
    rw [roundAwayFmt, if_neg (by norm_num)]
    rw [show -⌊-(10 * ((-31 : ℚ) / 20)) + 1 / 2⌋ = -16 by norm_num]
    rfl
  exact ⟨h1, h2, by rw [h1, h2]; decide⟩

/-- C9: the table has exactly `10007` slots and resolves no collisions:
two labels that hash to the same slot address the same cells for every
read and write — the index, every `get`, every numeric store and the
whole per-record update coincide — so records of both labels silently
merge into one aggregate. -/
theorem C9_collisions_silently_merge :
    BLOCK_COUNT = 10007 ∧
    ∀ k k' : List ℕ, slotOf k = slotOf k' →
      (∀ es : ℕ, getIndex k es = getIndex k' es) ∧
      (∀ (st : SMState) (o : ℕ), getNum st k o = getNum st k' o) ∧
      (∀ (st : SMState) (v : ℤ) (o : ℕ), (setNum st k v o).agg = (setNum st k' v o).agg) ∧
      (∀ (st : SMState) (temp : JSVal),
        (processRecord st k temp).agg = (processRecord st k' temp).agg) := by
  refine ⟨rfl, fun k k' hs => ⟨?_, ?_, ?_, ?_⟩⟩
  · intro es
    rw [getIndex_eq, getIndex_eq, hs]
  · exact getNum_slot_congr hs
  · intro st v o
    funext i
    simp [setNum, getIndex_eq, hs]
  · intro st temp
    simp only [processRecord]
    by_cases hc : getNum st k COUNT_OFFSET = 0
    · rw [if_pos hc, if_pos (by rw [← getNum_slot_congr hs st COUNT_OFFSET]; exact hc)]
      rw [setName_agg, setName_agg]
      exact setNumReadD_congr hs (fun _ => temp) SUM_OFFSET COUNT_OFFSET
        (setNumReadD_congr hs (fun _ => temp) MAX_OFFSET COUNT_OFFSET
          (setNumReadD_congr hs (fun _ => temp) MIN_OFFSET COUNT_OFFSET
            (setNumRead_congr hs (fun _ => 1) COUNT_OFFSET COUNT_OFFSET rfl)))
    · rw [if_neg hc, if_neg (by rw [← getNum_slot_congr hs st COUNT_OFFSET]; exact hc)]
      exact setNumReadD_congr hs (fun x => dAddV temp (JSVal.int x)) SUM_OFFSET SUM_OFFSET
        (setNumReadD_congr hs (fun x => dMaxV x temp) MAX_OFFSET MAX_OFFSET
          (setNumReadD_congr hs (fun x => dMinV x temp) MIN_OFFSET MIN_OFFSET
            (setNumRead_congr hs (fun x => x + 1) COUNT_OFFSET COUNT_OFFSET rfl)))

/-- Witness for C9 at the colliding labels `"AC"` and `"ZT"`: one record
each, and the table reports the merged aggregate (count `2`, sum `30`)
through either label. -/
theorem C9_collisions_silently_merge_witness :
    slotOf [65, 67] = slotOf [90, 84] ∧ [65, 67] ≠ [90, 84] ∧
    (∀ (st : SMState) (o : ℕ), getNum st [65, 67] o = getNum st [90, 84] o) ∧
    getNum (runRecords recsC9) [65, 67] COUNT_OFFSET = 2 ∧
    getNum (runRecords recsC9) [90, 84] SUM_OFFSET = 30 := by
  have hs : slotOf [65, 67] = slotOf [90, 84] := by decide
  exact ⟨hs, by decide,
    (C9_collisions_silently_merge.2 [65, 67] [90, 84] hs).2.1, by decide, by decide⟩

end SchedulerWorker
